import Mathlib

/-!
Verification of the file-content buffer cache of `source/lib/res/file/file_cache.cpp`:
the segregated-freelist suballocator (`CacheAllocator`), the block ring
(`BlockMgr`), the extant-buffer registry (`ExtantBufMgr`) and the coordination
facade (`file_buf_alloc` / `file_buf_free`).

Machine integers are modelled as `Nat` (with explicit `% 2^32` where a `uint`
wraps), pointers as arena-relative offsets, and the boundary tags written into
freed memory by `freelist_add` are represented by the free-region records on the
freelists themselves: a valid footer ends at address `a` exactly when a listed
free region ends at `a`, and likewise for headers, which is the design
assumption the source states for its magic-value tags.
-/

/-- `BUF_ALIGN`: the size quantum, one 4 KiB page. -/
def BUF_ALIGN : ℕ := 4096

/-- `MAX_CACHE_SIZE`: capacity of the fixed arena (64 MiB). -/
def MAX_CACHE_SIZE : ℕ := 64 * 1024 * 1024

/-- `round_up(size, align)` for a power-of-two `align`, as in the lib utility. -/
def round_up (size align : ℕ) : ℕ := ((size + align - 1) / align) * align

/-- floor of log2 on unsigned values, fuel-bounded at 64 bits so that it is a
structural recursion (the lib's `log2(uint)`). -/
def ilog2Go : ℕ → ℕ → ℕ
  | 0, _ => 0
  | fuel + 1, n => if n < 2 then 0 else ilog2Go fuel (n / 2) + 1

def ilog2 (n : ℕ) : ℕ := ilog2Go 64 n

/-- `CacheAllocator::size_class_of`: size class = ⌊log2(aligned size)⌋. -/
def size_class_of (size_pa : ℕ) : ℕ := ilog2 size_pa

/-- A free region of the arena: a node of one doubly linked freelist, i.e. a
`Header`/`Footer` boundary-tag pair written into the freed bytes. `off` is the
arena-relative address, `size_pa` the page-aligned size recorded in the tags. -/
structure Region where
  off : ℕ
  size_pa : ℕ
deriving DecidableEq

/-- State of `CacheAllocator` together with its backing `Pool` arena: `pos` is
the committed tail of the arena (bytes handed out by the bump allocator),
`bitmap` the size-class occupancy bitmap, `freelists c` the class-`c`
doubly linked list read off from its sentinel head in link order. -/
structure AllocState where
  pos : ℕ
  bitmap : ℕ
  freelists : ℕ → List Region

/-- Modelled from the spec: the arena allocator (`Pool`) is an external
collaborator (spec section 6) offering `alloc(size) -> pointer | fail`; it is a
page-aligned bump allocator over the fixed 64 MiB region, handing out the
never-yet-allocated tail and failing when capacity is exhausted. -/
def pool_alloc (st : AllocState) (size_pa : ℕ) : Option ℕ × AllocState :=
  if st.pos + size_pa ≤ MAX_CACHE_SIZE then
    (some st.pos, { st with pos := st.pos + size_pa })
  else (none, st)

/-- Modelled from the spec: `pool_contains` of the arena collaborator tests
membership in the committed part of the arena. -/
def pool_contains (st : AllocState) (off : ℕ) : Prop := off < st.pos

instance (st : AllocState) (off : ℕ) : Decidable (pool_contains st off) :=
  inferInstanceAs (Decidable (off < st.pos))

/-- The insertion walk of `CacheAllocator::freelist_add`: starting from the
sentinel, advance past every node whose address is ≥ the new header's address
(`header <= prev->next` in the source compares the raw pointers), then link the
new node in before the first node at a lower address. -/
def freelistInsert (r : Region) : List Region → List Region
  | [] => [r]
  | n :: rest => if r.off ≤ n.off then n :: freelistInsert r rest else r :: n :: rest

/-- remove the first node at address `off` from a class list
(`freelist_remove` splices the node out of the doubly linked list). -/
def removeAt (off : ℕ) : List Region → List Region
  | [] => []
  | n :: rest => if n.off = off then rest else n :: removeAt off rest

/-- `CacheAllocator::freelist_add`: write header and footer tags into the freed
memory (here: the `Region` record itself), insert the node into its size
class's list with the sentinel walk above, and set the class's bitmap bit. -/
def freelist_add (st : AllocState) (p size_pa : ℕ) : AllocState :=
  let c := size_class_of size_pa
  { st with
    freelists := fun c' =>
      if c' = c then freelistInsert ⟨p, size_pa⟩ (st.freelists c) else st.freelists c'
    bitmap := st.bitmap ||| 2 ^ c }

/-- `CacheAllocator::freelist_remove`: unlink the node, wipe its tags, and
clear the class's bitmap bit if its list became empty. -/
def freelist_remove (st : AllocState) (r : Region) : AllocState :=
  let c := size_class_of r.size_pa
  let l := removeAt r.off (st.freelists c)
  { st with
    freelists := fun c' => if c' = c then l else st.freelists c'
    bitmap := if l.isEmpty then (if st.bitmap.testBit c then st.bitmap - 2 ^ c else st.bitmap)
              else st.bitmap }

/-- All free regions reachable from the 64 sentinel heads, classes `0..n-1` in
order: the set of boundary tags currently present in arena memory. -/
def regionsUpTo (st : AllocState) : ℕ → List Region
  | 0 => []
  | c + 1 => regionsUpTo st c ++ st.freelists c

def regionsList (st : AllocState) : List Region := regionsUpTo st 64

/-- reading the `Footer` tag that ends at address `target` (used by
`coalesce_and_free` to find a free predecessor): valid exactly when some listed
free region ends there. -/
def findEndingAt (st : AllocState) (target : ℕ) : Option Region :=
  (regionsList st).find? (fun r => r.off + r.size_pa = target)

/-- reading the `Header` tag at address `target` (a free successor). -/
def findStartingAt (st : AllocState) (target : ℕ) : Option Region :=
  (regionsList st).find? (fun r => r.off = target)

/-- `CacheAllocator::coalesce_and_free`: extend `[p, p+size_pa)` backward over a
valid footer (unless `p` is the arena base) and forward over a valid header
(unless it starts beyond the committed tail), unlinking the merged neighbors,
then add the (possibly enlarged) region to its freelist. -/
def coalesce_and_free (st : AllocState) (p size_pa : ℕ) : AllocState :=
  let back : ℕ × ℕ × AllocState :=
    if p ≠ 0 then
      match findEndingAt st p with
      | some r => (p - r.size_pa, size_pa + r.size_pa, freelist_remove st r)
      | none => (p, size_pa, st)
    else (p, size_pa, st)
  let p := back.1
  let size_pa := back.2.1
  let st := back.2.2
  let fwd : ℕ × AllocState :=
    if p + size_pa < st.pos then
      match findStartingAt st (p + size_pa) with
      | some r => (size_pa + r.size_pa, freelist_remove st r)
      | none => (size_pa, st)
    else (size_pa, st)
  freelist_add fwd.2 p fwd.1

/-- `CacheAllocator::free`: validate that the quantum-rounded range lies
entirely within the arena; on failure log a diagnostic and return with the
state unchanged, else coalesce and add to the freelist. -/
def CacheAllocator.free (st : AllocState) (p size : ℕ) : AllocState :=
  let size_pa := round_up size BUF_ALIGN
  if pool_contains st p ∧ pool_contains st (p + size_pa - 1) then
    coalesce_and_free st p size_pa
  else st

/-- `CacheAllocator::alloc_from_class`: first fit in the class's list; remove
it and reinsert any nonzero remainder into the remainder's own class. -/
def alloc_from_class (st : AllocState) (size_class size_pa : ℕ) :
    Option (ℕ × AllocState) :=
  match (st.freelists size_class).find? (fun r => size_pa ≤ r.size_pa) with
  | none => none
  | some cur =>
    let p := cur.off
    let remnant_pa := cur.size_pa - size_pa
    let st1 := freelist_remove st cur
    let st2 := if remnant_pa ≠ 0 then freelist_add st1 (p + size_pa) remnant_pa else st1
    some (p, st2)

/-- the loop of `CacheAllocator::alloc_from_larger_class`: the source iterates
the set bits of `bitmap & (~0 << start_size_class)` lowest-first via LS1,
calling `alloc_from_class` on each; embedded as an ascending scan over the
classes from `start_size_class` up that tries exactly the classes whose
occupancy bit is set (a failed try does not change the state). -/
def scan_classes (st : AllocState) (size_pa : ℕ) : ℕ → ℕ → Option (ℕ × AllocState)
  | 0, _ => none
  | fuel + 1, c =>
    if 64 ≤ c then none
    else if st.bitmap.testBit c then
      match alloc_from_class st c size_pa with
      | some r => some r
      | none => scan_classes st size_pa fuel (c + 1)
    else scan_classes st size_pa fuel (c + 1)

def alloc_from_larger_class (st : AllocState) (start_size_class size_pa : ℕ) :
    Option (ℕ × AllocState) :=
  scan_classes st size_pa 64 start_size_class

/-- `CacheAllocator::alloc`: a 0-byte request is bumped to 1 byte; round up to
the quantum; then (1) first fit in the ideal class, (2) grab from the arena
tail, (3) split from a larger class via the bitmap, (4) fail. -/
def CacheAllocator.alloc (st : AllocState) (size : ℕ) : Option ℕ × AllocState :=
  let size := if size = 0 then 1 else size
  let size_pa := round_up size BUF_ALIGN
  let size_class := size_class_of size_pa
  match alloc_from_class st size_class size_pa with
  | some (p, st') => (some p, st')
  | none =>
    match pool_alloc st size_pa with
    | (some p, st') => (some p, st')
    | (none, _) =>
      match alloc_from_larger_class st size_class size_pa with
      | some (p, st') => (some p, st')
      | none => (none, st)

/-- The freshly created allocator: empty freelists, clear bitmap, untouched
arena. -/
def emptyAlloc : AllocState := ⟨0, 0, fun _ => []⟩

/-!
## Block Manager (`BlockMgr`)

A fixed ring of 32 slots caching raw archive blocks, keyed by
`BlockId = (atom_fn, block_num)`; atom filenames are interned pointers,
modelled as naturals. A slot's memory pointer is fixed at construction, so the
returned memory is modelled as the slot index.
-/

def MAX_BLOCKS : ℕ := 32

inductive BlockStatus
  | pending
  | complete
  | invalid
deriving DecidableEq

structure Block where
  id : ℕ × ℕ
  status : BlockStatus
  refs : ℤ
deriving DecidableEq

/-- the `Block()` constructor: id `(0,0)`, `BS_INVALID`, zero refs. -/
def blockDefault : Block := ⟨(0, 0), .invalid, 0⟩

structure BlockMgrState where
  blocks : List Block
  oldest_block : ℕ
deriving DecidableEq

def initBlockMgr : BlockMgrState := ⟨List.replicate MAX_BLOCKS blockDefault, 0⟩

/-- the reuse condition of `BlockMgr::alloc`: not `BS_PENDING` and
unreferenced (`b->status != BS_PENDING && b->refs == 0`). -/
def blockReusable (b : Block) : Prop := b.status ≠ .pending ∧ b.refs = 0

instance (b : Block) : Decidable (blockReusable b) := inferInstanceAs (Decidable (_ ∧ _))

/-- the scan loop of `BlockMgr::alloc`: up to `MAX_BLOCKS` probes from the
`oldest_block` cursor, advancing the cursor for every slot inspected. A slot
is taken when it is reusable (it is then tagged with the new id and
`BS_PENDING`, keeping its zero reference count); every other slot — including
a `BS_COMPLETE` one that is still referenced — is skipped (possibly with a
diagnostic); after a full traversal the call fails ("all blocks are locked"). -/
def BlockMgr.allocScan : BlockMgrState → (ℕ × ℕ) → ℕ → Option ℕ × BlockMgrState
  | st, _, 0 => (none, st)
  | st, id, fuel + 1 =>
    if blockReusable (st.blocks.getD st.oldest_block blockDefault) then
      (some st.oldest_block,
        ⟨st.blocks.set st.oldest_block
           { st.blocks.getD st.oldest_block blockDefault with id := id, status := .pending },
         (st.oldest_block + 1) % MAX_BLOCKS⟩)
    else BlockMgr.allocScan ⟨st.blocks, (st.oldest_block + 1) % MAX_BLOCKS⟩ id fuel

/-- `BlockMgr::alloc` (the pre-scan over all slots only emits a diagnostic when
the id is already present; it does not change state or divert the scan). -/
def BlockMgr.alloc (st : BlockMgrState) (id : ℕ × ℕ) : Option ℕ × BlockMgrState :=
  BlockMgr.allocScan st id MAX_BLOCKS

/-- `BlockMgr::mark_completed`: the first slot with a matching id is flipped to
`BS_COMPLETE` (the source asserts it was `BS_PENDING`); a diagnostic otherwise. -/
def mcScan (id : ℕ × ℕ) : List Block → List Block
  | [] => []
  | b :: bs => if b.id = id then { b with status := .complete } :: bs else b :: mcScan id bs

def BlockMgr.mark_completed (st : BlockMgrState) (id : ℕ × ℕ) : BlockMgrState :=
  { st with blocks := mcScan id st.blocks }

/-- the linear search of `BlockMgr::find`, carrying the slot index: a
`BS_COMPLETE` match gains a reference and yields its memory; a match in any
other state is a diagnostic and a miss; otherwise a plain miss. -/
def findScan (id : ℕ × ℕ) : List Block → ℕ → Option ℕ × List Block
  | [], _ => (none, [])
  | b :: bs, i =>
    if b.id = id then
      if b.status = .complete then (some i, { b with refs := b.refs + 1 } :: bs)
      else (none, b :: bs)
    else
      let r := findScan id bs (i + 1)
      (r.1, b :: r.2)

def BlockMgr.find (st : BlockMgrState) (id : ℕ × ℕ) : Option ℕ × BlockMgrState :=
  let r := findScan id st.blocks 0
  (r.1, { st with blocks := r.2 })

/-- `BlockMgr::release`: decrement the first matching slot's reference count
(asserted nonnegative afterwards); diagnostic if not found. -/
def relScan (id : ℕ × ℕ) : List Block → List Block
  | [] => []
  | b :: bs => if b.id = id then { b with refs := b.refs - 1 } :: bs else b :: relScan id bs

def BlockMgr.release (st : BlockMgrState) (id : ℕ × ℕ) : BlockMgrState :=
  { st with blocks := relScan id st.blocks }

/-- `BlockMgr::invalidate`: every slot of the given file identity is marked
`BS_INVALID` (with a non-fatal warning if still referenced); ids are kept. -/
def BlockMgr.invalidate (st : BlockMgrState) (atom_fn : ℕ) : BlockMgrState :=
  { st with blocks := st.blocks.map (fun b => if b.id.1 = atom_fn then { b with status := .invalid } else b) }

/-!
## Extant-buffer registry (`ExtantBufMgr`)

Buffer addresses are arena offsets shifted so that `0` plays the role of the
null pointer / tombstone marker, exactly as in the source. Reference counts
are `uint`, so they wrap modulo `2^32`.
-/

structure ExtantBuf where
  buf : ℕ
  size : ℕ
  atom_fn : ℕ
  refs : ℕ
  epoch : ℕ
deriving DecidableEq

structure EBState where
  bufs : List ExtantBuf
  epoch : ℕ
deriving DecidableEq

def initEB : EBState := ⟨[], 1⟩

/-- `ExtantBufMgr::matches`: containment of the queried address in the entry's
range (`eb.buf <= buf && buf < eb.buf + eb.size`). -/
def ebMatches (eb : ExtantBuf) (buf : ℕ) : Prop := eb.buf ≤ buf ∧ buf < eb.buf + eb.size

instance (eb : ExtantBuf) (buf : ℕ) : Decidable (ebMatches eb buf) :=
  inferInstanceAs (Decidable (_ ∧ _))

/-- a `uint` increment. -/
def incU32 (r : ℕ) : ℕ := (r + 1) % 2 ^ 32

/-- a `uint` decrement (`--eb.refs`). -/
def decU32 (r : ℕ) : ℕ := (r + (2 ^ 32 - 1)) % 2 ^ 32

/-- the hole-reuse walk of `ExtantBufMgr::add`: overwrite the first tombstoned
slot (`eb.buf == 0`), else append a new entry. -/
def ebAddScan (e : ExtantBuf) : List ExtantBuf → List ExtantBuf
  | [] => [e]
  | x :: xs => if x.buf = 0 then e :: xs else x :: ebAddScan e xs

/-- `ExtantBufMgr::add`: register with reference count 1; a zero size is bumped
to 1 (matching the allocator); non-long-lived buffers take the current epoch
and advance the counter, long-lived ones are stamped 0. -/
def ExtantBufMgr.add (st : EBState) (buf size atom_fn : ℕ) (long_lived : Bool) : EBState :=
  let size := if size = 0 then 1 else size
  let this_epoch := if long_lived then 0 else st.epoch
  let epoch' := if long_lived then st.epoch else st.epoch + 1
  { bufs := ebAddScan ⟨buf, size, atom_fn, 1, this_epoch⟩ st.bufs, epoch := epoch' }

/-- the walk of `ExtantBufMgr::add_ref`: bump the first containing entry. -/
def ebAddRefScan (buf : ℕ) : List ExtantBuf → Option (List ExtantBuf)
  | [] => none
  | x :: xs =>
    if ebMatches x buf then some ({ x with refs := incU32 x.refs } :: xs)
    else (ebAddRefScan buf xs).map (x :: ·)

/-- `ExtantBufMgr::add_ref`: increment the containing entry's count if one
exists, else fall back to `add` with `long_lived = false`. -/
def ExtantBufMgr.add_ref (st : EBState) (buf size atom_fn : ℕ) : EBState :=
  match ebAddRefScan buf st.bufs with
  | some bufs' => { st with bufs := bufs' }
  | none => ExtantBufMgr.add st buf size atom_fn false

/-- the walk of `ExtantBufMgr::find_and_remove`: on the first containing entry,
report its exact buffer, size and owner, decrement the count, and tombstone the
slot (zero `buf`, `size`, `atom_fn`) exactly when the count reaches zero. -/
def ebRemoveScan (buf : ℕ) : List ExtantBuf →
    Option ((ℕ × ℕ × ℕ) × Bool × List ExtantBuf)
  | [] => none
  | x :: xs =>
    if ebMatches x buf then
      let r := decU32 x.refs
      if r = 0 then some ((x.buf, x.size, x.atom_fn), true, ⟨0, 0, 0, r, x.epoch⟩ :: xs)
      else some ((x.buf, x.size, x.atom_fn), false, { x with refs := r } :: xs)
    else (ebRemoveScan buf xs).map (fun y => (y.1, y.2.1, x :: y.2.2))

/-- `ExtantBufMgr::find_and_remove`: result is `(match info, fully_released,
new state)`; the epoch counter advances only on a match (the immediate-free
diagnostic it also performs has no state effect); a miss is a double-free
diagnostic returning `false`. -/
def ExtantBufMgr.find_and_remove (st : EBState) (buf : ℕ) :
    Option (ℕ × ℕ × ℕ) × Bool × EBState :=
  match ebRemoveScan buf st.bufs with
  | some (info, removed, bufs') => (some info, removed, { bufs := bufs', epoch := st.epoch + 1 })
  | none => (none, false, st)

/-!
## File cache collaborator and the coordination facade
-/

/-- Modelled from the spec: the cost-based file cache is an external
collaborator (spec sections 2 and 6) mapping file identity to a cached buffer;
it supports keyed retrieval, removal, and eviction of some entry on demand
(`remove_least_valuable`). Entries are `(atom_fn, buf, size)`; the eviction
order is the collaborator's choice, modelled as list order. -/
def FileCache : Type := List (ℕ × ℕ × ℕ)

/-- Modelled from the spec: keyed lookup `retrieve(key) -> (value, size, hit)`. -/
def cacheRetrieve (cache : FileCache) (atom_fn : ℕ) : Option (ℕ × ℕ) :=
  (List.find? (fun e => e.1 = atom_fn) cache).map (fun e => e.2)

/-- Modelled from the spec: `remove_least_valuable() -> (value, size, found)`,
failing exactly when the cache is empty. -/
def cacheRemoveLeastValuable (cache : FileCache) : Option ((ℕ × ℕ) × FileCache) :=
  match cache with
  | [] => none
  | e :: rest => some ((e.2.1, e.2.2), rest)

/-- outcome of the `file_buf_alloc` retry loop: either a buffer, or the
`TEST(removed)` internal-logic failure hit when the cache is already empty. -/
inductive FBAOutcome
  | success (p : ℕ)
  | cacheEmptyError
deriving DecidableEq

/-- the retry loop of `file_buf_alloc`: try the suballocator; on failure evict
the cache's least valuable entry (an empty cache here is the `TEST(removed)`
internal error), free that buffer through the suballocator, count the attempt,
and — once the post-incremented counter exceeds 50 — log the
"possible infinite loop" warning (counted in the last component) and loop on. -/
def fbaLoop : AllocState → ℕ → ℕ → ℕ →
    List (ℕ × ℕ × ℕ) → FBAOutcome × AllocState × List (ℕ × ℕ × ℕ) × ℕ
  | ast, size, _, warns, [] =>
    match CacheAllocator.alloc ast size with
    | (some p, ast') => (.success p, ast', [], warns)
    | (none, _) => (.cacheEmptyError, ast, [], warns)
  | ast, size, attempts, warns, e :: rest =>
    match CacheAllocator.alloc ast size with
    | (some p, ast') => (.success p, ast', e :: rest, warns)
    | (none, _) =>
      fbaLoop (CacheAllocator.free ast e.2.1 e.2.2) size (attempts + 1)
        (if attempts > 50 then warns + 1 else warns) rest

/-- `file_buf_alloc`: run the retry loop, then register the buffer in the
extant-buffer registry. -/
def file_buf_alloc (ast : AllocState) (cache : FileCache) (ebs : EBState)
    (size atom_fn : ℕ) (long_lived : Bool) :
    FBAOutcome × AllocState × FileCache × ℕ × EBState :=
  let r := fbaLoop ast size 0 0 cache
  match r.1 with
  | .success p => (r.1, r.2.1, r.2.2.1, r.2.2.2, ExtantBufMgr.add ebs p size atom_fn long_lived)
  | .cacheEmptyError => (r.1, r.2.1, r.2.2.1, r.2.2.2, ebs)

def ERR_OK : ℤ := 0

/-- `file_buf_free`: a null buffer succeeds immediately; otherwise release via
the registry, and only when fully released physically free the memory through
the suballocator — unless the file cache still holds an entry for the owner
identity (the source then only asserts that the cached buffer coincides). -/
def file_buf_free (ast : AllocState) (ebs : EBState) (cache : FileCache) (buf : ℕ) :
    ℤ × AllocState × EBState :=
  if buf = 0 then (ERR_OK, ast, ebs)
  else
    match ExtantBufMgr.find_and_remove ebs buf with
    | (some info, actually_removed, ebs') =>
      if actually_removed then
        match cacheRetrieve cache info.2.2 with
        | some _ => (ERR_OK, ast, ebs')
        | none => (ERR_OK, CacheAllocator.free ast info.1 info.2.1, ebs')
      else (ERR_OK, ast, ebs')
    | (none, _, ebs') => (ERR_OK, ast, ebs')

/-!
## Spec-side rendering of the allocation strategy (claim C4)
-/

/-- The spec's step (1) in its own words: walk the ideal class's freelist for
the first node whose size is at least the request; remove it, and if it is
strictly larger split off the remainder and reinsert the remainder into its
own size class's freelist. -/
def specFirstFit (st : AllocState) (size_class req : ℕ) : Option (ℕ × AllocState) :=
  match (st.freelists size_class).find? (fun r => req ≤ r.size_pa) with
  | none => none
  | some r =>
    let st1 := freelist_remove st r
    let st2 := if req < r.size_pa then freelist_add st1 (r.off + req) (r.size_pa - req) else st1
    some (r.off, st2)

/-- The spec's step (3) in its own words: scan only the size classes strictly
larger than the ideal one, lowest such class first, via the occupancy bitmap,
taking the first fit with the same splitting. -/
def specLargerScan (st : AllocState) (req : ℕ) : ℕ → ℕ → Option (ℕ × AllocState)
  | 0, _ => none
  | fuel + 1, c =>
    if 64 ≤ c then none
    else if st.bitmap.testBit c then
      match specFirstFit st c req with
      | some r => some r
      | none => specLargerScan st req fuel (c + 1)
    else specLargerScan st req fuel (c + 1)

/-- `alloc` as the ordered strategy list of the spec and claim C4:
(1) first fit in the ideal class, (2) bump from the untouched arena tail,
(3) first fit in a strictly larger class, (4) failure. -/
def allocSpec (st : AllocState) (size : ℕ) : Option ℕ × AllocState :=
  let size := if size = 0 then 1 else size
  let req := round_up size BUF_ALIGN
  let c := size_class_of req
  match specFirstFit st c req with
  | some (p, st') => (some p, st')
  | none =>
    match pool_alloc st req with
    | (some p, st') => (some p, st')
    | (none, _) =>
      match specLargerScan st req 64 (c + 1) with
      | some (p, st') => (some p, st')
      | none => (none, st)

lemma specFirstFit_eq_alloc_from_class (st : AllocState) (c req : ℕ) :
    specFirstFit st c req = alloc_from_class st c req := by
  unfold specFirstFit alloc_from_class
  cases hf : (st.freelists c).find? (fun r => req ≤ r.size_pa) with
  | none => rfl
  | some r =>
    have hr : req ≤ r.size_pa := by
      have := List.find?_some hf
      simpa using this
    have : (req < r.size_pa) ↔ (r.size_pa - req ≠ 0) := by omega
    simp only [this]

lemma specLargerScan_eq_scan_classes (st : AllocState) (req : ℕ) :
    ∀ fuel c, specLargerScan st req fuel c = scan_classes st req fuel c := by
  intro fuel
  induction fuel with
  | zero => intro c; rfl
  | succ n ih =>
    intro c
    unfold specLargerScan scan_classes
    rw [specFirstFit_eq_alloc_from_class, ih]

lemma scan_classes_stable (st : AllocState) (req : ℕ) :
    ∀ f₁ f₂ c, 64 ≤ c + f₁ → 64 ≤ c + f₂ →
      scan_classes st req f₁ c = scan_classes st req f₂ c := by
  intro f₁
  induction f₁ with
  | zero =>
    intro f₂ c h1 h2
    cases f₂ with
    | zero => rfl
    | succ m =>
      unfold scan_classes
      rw [if_pos (by omega)]
  | succ n ih =>
    intro f₂ c h1 h2
    cases f₂ with
    | zero =>
      unfold scan_classes
      rw [if_pos (by omega)]
    | succ m =>
      unfold scan_classes
      by_cases hc : 64 ≤ c
      · rw [if_pos hc, if_pos hc]
      · rw [if_neg hc, if_neg hc]
        have he := ih m (c + 1) (by omega) (by omega)
        rw [he]

lemma scan_classes_succ (st : AllocState) (req n c : ℕ) :
    scan_classes st req (n + 1) c =
      if 64 ≤ c then none
      else if st.bitmap.testBit c then
        (match alloc_from_class st c req with
         | some r => some r
         | none => scan_classes st req n (c + 1))
      else scan_classes st req n (c + 1) := rfl

lemma scan_classes_ge (st : AllocState) (req c : ℕ) (hc : 64 ≤ c) :
    ∀ fuel, scan_classes st req fuel c = none := by
  intro fuel
  cases fuel with
  | zero => rfl
  | succ n => rw [scan_classes_succ, if_pos hc]

lemma scan_classes_step (st : AllocState) (req n c : ℕ) (hn : 64 ≤ c + n + 1)
    (h1 : alloc_from_class st c req = none) :
    scan_classes st req (n + 1) c = scan_classes st req (n + 1) (c + 1) := by
  rw [scan_classes_succ, h1]
  have hst : scan_classes st req n (c + 1) = scan_classes st req (n + 1) (c + 1) :=
    scan_classes_stable st req n (n + 1) (c + 1) (by omega) (by omega)
  by_cases h64 : 64 ≤ c
  · rw [if_pos h64, scan_classes_ge st req (c + 1) (by omega)]
  · rw [if_neg h64]
    by_cases hb : st.bitmap.testBit c
    · rw [if_pos hb]
      exact hst
    · rw [if_neg hb]
      exact hst

lemma scan_classes_64_step (st : AllocState) (req c : ℕ)
    (h1 : alloc_from_class st c req = none) :
    scan_classes st req 64 c = scan_classes st req 64 (c + 1) :=
  scan_classes_step st req 63 c (by omega) h1

/-- Claim C4: `alloc` attempts exactly the spec's strategies in the spec's
order and returns the first success: first fit in the ideal size class with
splitting, then bump allocation from the arena's never-yet-allocated tail,
then first fit in a strictly larger size class (lowest first, via the
occupancy bitmap, with the same splitting), else failure. The source's
larger-class scan starts its bitmap mask at the ideal class itself, but that
rescan cannot succeed after step (1) has failed on the unchanged state, so the
two functions agree on every state and request. -/
theorem c4_alloc_strategy_order (st : AllocState) (size : ℕ) :
    CacheAllocator.alloc st size = allocSpec st size := by
  unfold CacheAllocator.alloc allocSpec alloc_from_larger_class
  simp only [specFirstFit_eq_alloc_from_class, specLargerScan_eq_scan_classes]
  cases h1 : alloc_from_class st (size_class_of (round_up (if size = 0 then 1 else size) BUF_ALIGN)) (round_up (if size = 0 then 1 else size) BUF_ALIGN) with
  | some r => rfl
  | none =>
    cases h2 : pool_alloc st (round_up (if size = 0 then 1 else size) BUF_ALIGN) with
    | mk o st' =>
      cases o with
      | some p => rfl
      | none =>
        rw [scan_classes_64_step st _ _ h1]

/-!
## Claims C9, C10, C7: free-path error handling
-/

/-- Claim C9: calling the suballocator's `free` with a pointer whose
quantum-rounded range does not lie entirely within the arena only logs a
diagnostic and returns with the allocator's state (freelists, bitmap,
committed tail and the boundary tags they represent) completely unchanged. -/
theorem c9_free_invalid_pointer_unchanged (st : AllocState) (p size : ℕ)
    (h : ¬ (pool_contains st p ∧ pool_contains st (p + round_up size BUF_ALIGN - 1))) :
    CacheAllocator.free st p size = st := by
  unfold CacheAllocator.free
  exact if_neg h

/-- A small concrete allocator state for the C9 witness: two committed pages,
empty freelists. -/
def stW9 : AllocState := ⟨8192, 0, fun _ => []⟩

/-- Witness for C9 at a concrete out-of-arena pointer. -/
theorem c9_witness :
    ¬ (pool_contains stW9 999999 ∧ pool_contains stW9 (999999 + round_up 1 BUF_ALIGN - 1)) ∧
      CacheAllocator.free stW9 999999 1 = stW9 :=
  ⟨by decide, c9_free_invalid_pointer_unchanged stW9 999999 1 (by decide)⟩

/-- Claim C10: releasing a null buffer through the facade returns the success
code and leaves every piece of state unchanged — the registry is not
consulted, no cache lookup happens, and no memory is freed. -/
theorem c10_null_buffer_noop (ast : AllocState) (ebs : EBState) (cache : FileCache) :
    file_buf_free ast ebs cache 0 = (ERR_OK, ast, ebs) := rfl

/-- Claim C7 as stated: on release of a nonnull buffer the memory is
physically freed exactly when the registry reports it fully released AND the
file cache does not currently hold that very buffer under the entry's owner
identity. -/
def ClaimC7 : Prop :=
  ∀ (ast : AllocState) (ebs : EBState) (cache : FileCache) (buf : ℕ),
    buf ≠ 0 →
    match ExtantBufMgr.find_and_remove ebs buf with
    | (some info, removed, _) =>
      (file_buf_free ast ebs cache buf).2.1 =
        (if removed = true ∧ (cacheRetrieve cache info.2.2).map Prod.fst ≠ some buf
         then CacheAllocator.free ast info.1 info.2.1 else ast)
    | (none, _, _) => True

/-- Concrete state refuting C7 as stated: the registry holds buffer 8192 for
owner 7, but the cache holds a different buffer (12288) under owner 7. -/
def astX7 : AllocState := ⟨16384, 0, fun _ => []⟩

def ebsX7 : EBState := ⟨[⟨8192, 4096, 7, 1, 0⟩], 1⟩

def cacheX7 : FileCache := [(7, 12288, 4096)]

/-- Counterexample to claim C7 as stated: releasing buffer 8192 is the last
reference and the cache does not hold that buffer under owner 7 (it holds
12288 instead), so the claim demands the memory be freed; the source only
checks that the cache holds some entry for the owner, fires an assertion about
the mismatch, and does not free. -/
theorem c7_exact_buffer_counterexample : ¬ ClaimC7 := by
  intro h
  have h2 := h astX7 ebsX7 cacheX7 8192 (by decide)
  have h3 : (file_buf_free astX7 ebsX7 cacheX7 8192).2.1 =
      (if (true = true ∧ (cacheRetrieve cacheX7 7).map Prod.fst ≠ some 8192)
       then CacheAllocator.free astX7 8192 4096 else astX7) := h2
  have h4 := congrArg (fun s => s.freelists 12) h3
  revert h4
  decide

/-- Claim C7 amended: the memory is physically freed exactly when the buffer
is nonnull, the registry reports it fully released, AND the file cache holds
no entry at all under the released entry's owner identity; if the cache holds
any entry for that owner (even a mismatched one, which only triggers an
assertion diagnostic), or if the release was not the last reference, the
memory is not freed. -/
theorem c7_release_free_condition (ast : AllocState) (ebs : EBState)
    (cache : FileCache) (buf : ℕ) :
    (file_buf_free ast ebs cache buf).2.1 =
      (match ExtantBufMgr.find_and_remove ebs buf with
       | (some info, removed, _) =>
         if buf ≠ 0 ∧ removed = true ∧ cacheRetrieve cache info.2.2 = none
         then CacheAllocator.free ast info.1 info.2.1 else ast
       | (none, _, _) => ast) := by
  by_cases h0 : buf = 0
  · subst h0
    cases hfr : ExtantBufMgr.find_and_remove ebs 0 with
    | mk info rest =>
      cases info with
      | none => simp [file_buf_free]
      | some i => simp [file_buf_free]
  · cases hfr : ExtantBufMgr.find_and_remove ebs buf with
    | mk info rest =>
      cases info with
      | none =>
        simp only [file_buf_free, if_neg h0, hfr]
      | some i =>
        obtain ⟨exact_buf, actual_size, atom_fn⟩ := i
        obtain ⟨removed, ebs'⟩ := rest
        cases removed with
        | false =>
          simp [file_buf_free, if_neg h0, hfr]
        | true =>
          cases hr : cacheRetrieve cache atom_fn with
          | none =>
            simp [file_buf_free, if_neg h0, hfr, hr, h0]
          | some v =>
            simp [file_buf_free, if_neg h0, hfr, hr]

/-!
## Claim C1: address order of the class freelists
-/

/-- What claim C1 asserts: every class list, walked from its sentinel head,
visits free regions in strictly increasing address order. -/
def AscendingLists (st : AllocState) : Prop :=
  ∀ c, (st.freelists c).Pairwise (fun a b => a.off < b.off)

/-- What the insertion walk actually maintains: every class list, walked from
its sentinel head, visits free regions in decreasing address order. -/
def DescendingLists (st : AllocState) : Prop :=
  ∀ c, (st.freelists c).Pairwise (fun a b : Region => b.off ≤ a.off)

lemma mem_freelistInsert {x r : Region} {l : List Region} :
    x ∈ freelistInsert r l ↔ x = r ∨ x ∈ l := by
  induction l with
  | nil => simp [freelistInsert]
  | cons n rest ih =>
    unfold freelistInsert
    by_cases h : r.off ≤ n.off
    · rw [if_pos h]
      simp only [List.mem_cons, ih]
      tauto
    · rw [if_neg h]
      simp only [List.mem_cons]

lemma pairwise_freelistInsert {r : Region} {l : List Region}
    (h : l.Pairwise (fun a b : Region => b.off ≤ a.off)) :
    (freelistInsert r l).Pairwise (fun a b : Region => b.off ≤ a.off) := by
  induction l with
  | nil => simp [freelistInsert]
  | cons n rest ih =>
    rw [List.pairwise_cons] at h
    obtain ⟨hn, hrest⟩ := h
    unfold freelistInsert
    by_cases hle : r.off ≤ n.off
    · rw [if_pos hle]
      rw [List.pairwise_cons]
      refine ⟨?_, ih hrest⟩
      intro x hx
      rcases mem_freelistInsert.mp hx with he | hm
      · subst he
        exact hle
      · exact hn x hm
    · rw [if_neg hle]
      rw [List.pairwise_cons]
      refine ⟨?_, List.pairwise_cons.mpr ⟨hn, hrest⟩⟩
      intro x hx
      rcases List.mem_cons.mp hx with he | hm
      · subst he
        omega
      · exact le_trans (hn x hm) (by omega)

lemma removeAt_sublist (off : ℕ) (l : List Region) : (removeAt off l).Sublist l := by
  induction l with
  | nil => simp [removeAt]
  | cons n rest ih =>
    unfold removeAt
    by_cases h : n.off = off
    · rw [if_pos h]
      exact List.sublist_cons_self n rest
    · rw [if_neg h]
      exact ih.cons₂ n

lemma pairwise_removeAt {off : ℕ} {l : List Region}
    (h : l.Pairwise (fun a b : Region => b.off ≤ a.off)) :
    (removeAt off l).Pairwise (fun a b : Region => b.off ≤ a.off) :=
  h.sublist (removeAt_sublist off l)

lemma descending_freelist_add {st : AllocState} (h : DescendingLists st) (p s : ℕ) :
    DescendingLists (freelist_add st p s) := by
  intro c
  unfold freelist_add
  dsimp only
  by_cases hc : c = size_class_of s
  · rw [if_pos hc]
    exact pairwise_freelistInsert (h _)
  · rw [if_neg hc]
    exact h c

lemma descending_freelist_remove {st : AllocState} (h : DescendingLists st) (r : Region) :
    DescendingLists (freelist_remove st r) := by
  intro c
  unfold freelist_remove
  dsimp only
  by_cases hc : c = size_class_of r.size_pa
  · rw [if_pos hc]
    exact pairwise_removeAt (h _)
  · rw [if_neg hc]
    exact h c

lemma descending_coalesce {st : AllocState} (h : DescendingLists st) (p s : ℕ) :
    DescendingLists (coalesce_and_free st p s) := by
  unfold coalesce_and_free
  dsimp only
  by_cases hp : p ≠ 0
  · rw [if_pos hp]
    cases hf : findEndingAt st p with
    | some r =>
      dsimp only
      have h1 := descending_freelist_remove h r
      by_cases hfwd : p - r.size_pa + (s + r.size_pa) < (freelist_remove st r).pos
      · rw [if_pos hfwd]
        cases hs : findStartingAt (freelist_remove st r) (p - r.size_pa + (s + r.size_pa)) with
        | some r2 => exact descending_freelist_add (descending_freelist_remove h1 r2) _ _
        | none => exact descending_freelist_add h1 _ _
      · rw [if_neg hfwd]
        exact descending_freelist_add h1 _ _
    | none =>
      dsimp only
      by_cases hfwd : p + s < st.pos
      · rw [if_pos hfwd]
        cases hs : findStartingAt st (p + s) with
        | some r2 => exact descending_freelist_add (descending_freelist_remove h r2) _ _
        | none => exact descending_freelist_add h _ _
      · rw [if_neg hfwd]
        exact descending_freelist_add h _ _
  · rw [if_neg hp]
    dsimp only
    by_cases hfwd : p + s < st.pos
    · rw [if_pos hfwd]
      cases hs : findStartingAt st (p + s) with
      | some r2 => exact descending_freelist_add (descending_freelist_remove h r2) _ _
      | none => exact descending_freelist_add h _ _
    · rw [if_neg hfwd]
      exact descending_freelist_add h _ _

lemma descending_free {st : AllocState} (h : DescendingLists st) (p s : ℕ) :
    DescendingLists (CacheAllocator.free st p s) := by
  unfold CacheAllocator.free
  by_cases hc : pool_contains st p ∧ pool_contains st (p + round_up s BUF_ALIGN - 1)
  · rw [if_pos hc]
    exact descending_coalesce h p _
  · rw [if_neg hc]
    exact h

lemma descending_alloc_from_class {st : AllocState} (h : DescendingLists st)
    {c s p : ℕ} {st' : AllocState} (he : alloc_from_class st c s = some (p, st')) :
    DescendingLists st' := by
  unfold alloc_from_class at he
  cases hf : (st.freelists c).find? (fun r => s ≤ r.size_pa) with
  | none => rw [hf] at he; exact absurd he (by simp)
  | some cur =>
    rw [hf] at he
    dsimp only at he
    by_cases hrem : cur.size_pa - s ≠ 0
    · rw [if_pos hrem] at he
      cases he
      exact descending_freelist_add (descending_freelist_remove h cur) _ _
    · rw [if_neg hrem] at he
      cases he
      exact descending_freelist_remove h cur

lemma descending_scan_classes {st : AllocState} (h : DescendingLists st) (s : ℕ) :
    ∀ fuel c p st', scan_classes st s fuel c = some (p, st') → DescendingLists st' := by
  intro fuel
  induction fuel with
  | zero => intro c p st' he; exact absurd he (by simp [scan_classes])
  | succ n ih =>
    intro c p st' he
    rw [scan_classes_succ] at he
    by_cases h64 : 64 ≤ c
    · rw [if_pos h64] at he
      exact absurd he (by simp)
    · rw [if_neg h64] at he
      by_cases hb : st.bitmap.testBit c
      · rw [if_pos hb] at he
        cases hf : alloc_from_class st c s with
        | some r =>
          rw [hf] at he
          dsimp only at he
          cases he
          exact descending_alloc_from_class h hf
        | none =>
          rw [hf] at he
          exact ih (c + 1) p st' he
      · rw [if_neg hb] at he
        exact ih (c + 1) p st' he

/-- Claim C1 amended (the address order is descending, not ascending): both
suballocator operations keep every size class's freelist ordered by decreasing
address when walked from its sentinel head — `freelist_add`'s insertion walk
(`header <= prev->next` skips every node at an address above the new one)
preserves that order and node removal preserves any order, so it holds after
any sequence of `alloc` and `free` calls from the initial state. -/
theorem c1_freelists_descending (st : AllocState) (size p s : ℕ)
    (h : DescendingLists st) :
    DescendingLists (CacheAllocator.alloc st size).2 ∧
      DescendingLists (CacheAllocator.free st p s) := by
  refine ⟨?_, descending_free h p s⟩
  unfold CacheAllocator.alloc
  dsimp only
  cases h1 : alloc_from_class st (size_class_of (round_up (if size = 0 then 1 else size) BUF_ALIGN)) (round_up (if size = 0 then 1 else size) BUF_ALIGN) with
  | some r =>
    obtain ⟨rp, rst⟩ := r
    dsimp only
    exact descending_alloc_from_class h h1
  | none =>
    cases h2 : pool_alloc st (round_up (if size = 0 then 1 else size) BUF_ALIGN) with
    | mk o st' =>
      cases o with
      | some q =>
        dsimp only
        unfold pool_alloc at h2
        by_cases hcap : st.pos + round_up (if size = 0 then 1 else size) BUF_ALIGN ≤ MAX_CACHE_SIZE
        · rw [if_pos hcap] at h2
          cases h2
          exact h
        · rw [if_neg hcap] at h2
          cases h2
      | none =>
        dsimp only
        cases h3 : alloc_from_larger_class st (size_class_of (round_up (if size = 0 then 1 else size) BUF_ALIGN)) (round_up (if size = 0 then 1 else size) BUF_ALIGN) with
        | some r =>
          obtain ⟨rp, rst⟩ := r
          dsimp only
          exact descending_scan_classes h _ 64 _ rp rst h3
        | none =>
          dsimp only
          exact h

/-- allocate three pages from the fresh allocator, then free the first and the
third: the class-12 freelist then holds two non-adjacent free pages. -/
def stC1 : AllocState :=
  CacheAllocator.free
    (CacheAllocator.free
      (CacheAllocator.alloc
        (CacheAllocator.alloc (CacheAllocator.alloc emptyAlloc 4096).2 4096).2 4096).2
      0 4096)
    8192 4096

/-- Counterexample to claim C1 as stated: after allocating three pages and
freeing the pages at 0 and 8192, walking the class-12 list from its sentinel
head visits the region at 8192 before the region at 0 — a strictly decreasing
address order, not increasing. -/
theorem c1_ascending_counterexample : ¬ AscendingLists stC1 := by
  intro h
  exact absurd (h 12) (by decide)

/-- Witness for the amended C1 at the freshly constructed allocator. -/
theorem c1_witness :
    DescendingLists emptyAlloc ∧
      (DescendingLists (CacheAllocator.alloc emptyAlloc 4096).2 ∧
        DescendingLists (CacheAllocator.free emptyAlloc 0 4096)) :=
  ⟨fun _ => List.Pairwise.nil,
    c1_freelists_descending emptyAlloc 4096 0 4096 (fun _ => List.Pairwise.nil)⟩

/-!
## Claim C2: the allocate-evict-retry loop
-/

/-- Claim C2 as stated: the facade's allocate loop performs at most a fixed
number of retries (the source's counter threshold, 51 evictions) before a
success can be returned; exceeding the bound would be fatal, never a mere
log-and-continue. -/
def ClaimC2 : Prop :=
  ∀ (ast : AllocState) (size : ℕ) (cache : List (ℕ × ℕ × ℕ)) (p : ℕ),
    (fbaLoop ast size 0 0 cache).1 = .success p →
    cache.length - (fbaLoop ast size 0 0 cache).2.2.1.length ≤ 51

/-- A fully committed arena with empty freelists. -/
def astC2 : AllocState := ⟨MAX_CACHE_SIZE, 0, fun _ => []⟩

/-- 52 cache entries: 51 isolated single pages (whose frees never coalesce)
followed by one page adjacent to two of them; evicting all 52 finally yields a
12 KiB region, so a 8 KiB request succeeds on the 53rd attempt. -/
def bigCacheC2 : List (ℕ × ℕ × ℕ) :=
  ((List.range 51).map (fun i => (i, 8192 * i, 4096))) ++ [(99, 4096, 4096)]

set_option maxRecDepth 1000000 in
/-- Counterexample to claim C2 as stated: with a fully committed arena and the
cache above, the 8 KiB request fails 52 times; the loop evicts all 52 entries,
logs the "possible infinite loop" warning past the 51st attempt, keeps
looping, and returns success on the 53rd attempt — the bound is not enforced. -/
theorem c2_retry_bound_counterexample : ¬ ClaimC2 := by
  intro h
  have h2 := h astC2 8192 bigCacheC2 0
  revert h2
  decide

lemma fbaLoop_spec (size : ℕ) :
    ∀ (cache : List (ℕ × ℕ × ℕ)) (ast : AllocState) (a w : ℕ),
      (fbaLoop ast size a w cache).2.2.1.length ≤ cache.length ∧
      (fbaLoop ast size a w cache).2.2.2 =
        w + ((cache.length - (fbaLoop ast size a w cache).2.2.1.length) - (51 - a)) ∧
      ((fbaLoop ast size a w cache).1 = .cacheEmptyError →
        (fbaLoop ast size a w cache).2.2.1 = []) := by
  intro cache
  induction cache with
  | nil =>
    intro ast a w
    unfold fbaLoop
    cases h : CacheAllocator.alloc ast size with
    | mk o ast' =>
      cases o with
      | some p => simp
      | none => simp
  | cons e rest ih =>
    intro ast a w
    unfold fbaLoop
    cases h : CacheAllocator.alloc ast size with
    | mk o ast' =>
      cases o with
      | some p =>
        refine ⟨le_refl _, by simp, ?_⟩
        intro hc
        exact absurd hc (by simp)
      | none =>
        rcases hres : fbaLoop (CacheAllocator.free ast e.2.1 e.2.2) size (a + 1)
            (if a > 50 then w + 1 else w) rest with ⟨o2, ast2, fc, w2⟩
        have ih2 := ih (CacheAllocator.free ast e.2.1 e.2.2) (a + 1)
          (if a > 50 then w + 1 else w)
        rw [hres] at ih2
        obtain ⟨hl, hw, he⟩ := ih2
        dsimp only at hl hw he ⊢
        simp only [List.length_cons] at *
        refine ⟨by omega, ?_, he⟩
        rw [hw]
        by_cases ha : a > 50
        · rw [if_pos ha]
          omega
        · rw [if_neg ha]
          omega

/-- Claim C2 amended: the retry loop is bounded by the cache contents, not by
the fixed retry constant — it evicts at most (cache length) entries and then
either succeeds or hits the `TEST(removed)` internal-error path with the cache
exhausted; exceeding 50 attempts is not fatal: the loop merely logs one
"possible infinite loop" warning per iteration beyond the 51st eviction and
continues (warning count = evictions minus 51, truncated at zero). -/
theorem c2_retry_loop_bounded_by_cache (ast : AllocState) (size : ℕ)
    (cache : List (ℕ × ℕ × ℕ)) :
    (fbaLoop ast size 0 0 cache).2.2.1.length ≤ cache.length ∧
    (fbaLoop ast size 0 0 cache).2.2.2 =
      (cache.length - (fbaLoop ast size 0 0 cache).2.2.1.length) - 51 ∧
    ((fbaLoop ast size 0 0 cache).1 = .cacheEmptyError →
      (fbaLoop ast size 0 0 cache).2.2.1 = []) := by
  have h := fbaLoop_spec size cache ast 0 0
  simpa using h

/-!
## Claims C6 and C8: the Block Manager ring
-/

lemma getD_set {α : Type} (l : List α) (k : ℕ) (e : α) (i : ℕ) (d : α) :
    (l.set k e).getD i d = if i = k ∧ k < l.length then e else l.getD i d := by
  induction l generalizing k i with
  | nil => simp
  | cons x xs ih =>
    cases k with
    | zero =>
      cases i with
      | zero => simp
      | succ n => simp
    | succ m =>
      cases i with
      | zero => simp
      | succ n =>
        simp only [List.set, List.getD_cons_succ, List.length_cons, ih m n]
        by_cases hik : n = m ∧ m < xs.length
        · rw [if_pos hik, if_pos (by omega)]
        · rw [if_neg hik, if_neg (by omega)]

lemma allocScan_none (id : ℕ × ℕ) :
    ∀ (fuel : ℕ) (st : BlockMgrState), st.oldest_block < MAX_BLOCKS →
      (∀ m < fuel,
        ¬ blockReusable (st.blocks.getD ((st.oldest_block + m) % MAX_BLOCKS) blockDefault)) →
      BlockMgr.allocScan st id fuel =
        (none, ⟨st.blocks, (st.oldest_block + fuel) % MAX_BLOCKS⟩) := by
  intro fuel
  induction fuel with
  | zero =>
    intro st hold hall
    unfold BlockMgr.allocScan
    have : (st.oldest_block + 0) % MAX_BLOCKS = st.oldest_block := by
      unfold MAX_BLOCKS at *
      omega
    rw [this]
  | succ n ih =>
    intro st hold hall
    unfold BlockMgr.allocScan
    have h0 := hall 0 (by omega)
    have hoeq : (st.oldest_block + 0) % MAX_BLOCKS = st.oldest_block := by
      unfold MAX_BLOCKS at *
      omega
    rw [hoeq] at h0
    rw [if_neg h0]
    have hih := ih ⟨st.blocks, (st.oldest_block + 1) % MAX_BLOCKS⟩
      (by dsimp only; unfold MAX_BLOCKS; omega)
      (by
        intro m hm
        have := hall (m + 1) (by omega)
        have heq : ((st.oldest_block + 1) % MAX_BLOCKS + m) % MAX_BLOCKS =
            (st.oldest_block + (m + 1)) % MAX_BLOCKS := by
          unfold MAX_BLOCKS
          omega
        dsimp only at heq ⊢
        rw [heq]
        exact this)
    rw [hih]
    have : ((st.oldest_block + 1) % MAX_BLOCKS + n) % MAX_BLOCKS =
        (st.oldest_block + (n + 1)) % MAX_BLOCKS := by
      unfold MAX_BLOCKS
      omega
    rw [this]

lemma allocScan_found (id : ℕ × ℕ) :
    ∀ (m0 fuel : ℕ) (st : BlockMgrState), m0 < fuel → st.oldest_block < MAX_BLOCKS →
      blockReusable (st.blocks.getD ((st.oldest_block + m0) % MAX_BLOCKS) blockDefault) →
      (∀ m < m0,
        ¬ blockReusable (st.blocks.getD ((st.oldest_block + m) % MAX_BLOCKS) blockDefault)) →
      BlockMgr.allocScan st id fuel =
        (some ((st.oldest_block + m0) % MAX_BLOCKS),
          ⟨st.blocks.set ((st.oldest_block + m0) % MAX_BLOCKS)
             { st.blocks.getD ((st.oldest_block + m0) % MAX_BLOCKS) blockDefault with
                 id := id, status := .pending },
           ((st.oldest_block + m0) % MAX_BLOCKS + 1) % MAX_BLOCKS⟩) := by
  intro m0
  induction m0 with
  | zero =>
    intro fuel st hm0 hold hre hbefore
    cases fuel with
    | zero => omega
    | succ n =>
      unfold BlockMgr.allocScan
      have hoeq : (st.oldest_block + 0) % MAX_BLOCKS = st.oldest_block := by
        unfold MAX_BLOCKS at *
        omega
      rw [hoeq] at hre ⊢
      rw [if_pos hre]
  | succ m ih =>
    intro fuel st hm0 hold hre hbefore
    cases fuel with
    | zero => omega
    | succ n =>
      unfold BlockMgr.allocScan
      have h0 := hbefore 0 (by omega)
      have hoeq : (st.oldest_block + 0) % MAX_BLOCKS = st.oldest_block := by
        unfold MAX_BLOCKS at *
        omega
      rw [hoeq] at h0
      rw [if_neg h0]
      have hshift : ∀ k : ℕ, ((st.oldest_block + 1) % MAX_BLOCKS + k) % MAX_BLOCKS =
          (st.oldest_block + (k + 1)) % MAX_BLOCKS := by
        intro k
        unfold MAX_BLOCKS
        omega
      have hih := ih n ⟨st.blocks, (st.oldest_block + 1) % MAX_BLOCKS⟩
        (by omega)
        (by dsimp only; unfold MAX_BLOCKS; omega)
        (by dsimp only; rw [hshift m]; exact hre)
        (by
          intro k hk
          dsimp only
          rw [hshift k]
          exact hbefore (k + 1) (by omega))
      rw [hih]
      dsimp only
      rw [hshift m]

/-- Claim C6: `BlockMgr::alloc` scans the ring from the `oldest_block` cursor,
advancing the cursor for each slot inspected; a slot is reused exactly when its
status is not Pending and its reference count is 0 (so a Complete but still
referenced slot is skipped, not reused); the first such slot is retagged with
the new id and Pending status and its memory returned; and after inspecting
all 32 slots without finding a reusable one the call fails, leaving every slot
(and the cursor, which has wrapped around) unchanged. -/
theorem c6_blockmgr_alloc_scan (st : BlockMgrState) (id : ℕ × ℕ)
    (hold : st.oldest_block < MAX_BLOCKS) :
    ((∀ m < MAX_BLOCKS,
        ¬ blockReusable (st.blocks.getD ((st.oldest_block + m) % MAX_BLOCKS) blockDefault)) →
      BlockMgr.alloc st id = (none, st)) ∧
    (∀ m0 < MAX_BLOCKS,
      blockReusable (st.blocks.getD ((st.oldest_block + m0) % MAX_BLOCKS) blockDefault) →
      (∀ m < m0,
        ¬ blockReusable (st.blocks.getD ((st.oldest_block + m) % MAX_BLOCKS) blockDefault)) →
      BlockMgr.alloc st id =
        (some ((st.oldest_block + m0) % MAX_BLOCKS),
          ⟨st.blocks.set ((st.oldest_block + m0) % MAX_BLOCKS)
             { st.blocks.getD ((st.oldest_block + m0) % MAX_BLOCKS) blockDefault with
                 id := id, status := .pending },
           ((st.oldest_block + m0) % MAX_BLOCKS + 1) % MAX_BLOCKS⟩)) := by
  constructor
  · intro hall
    unfold BlockMgr.alloc
    rw [allocScan_none id MAX_BLOCKS st hold hall]
    have : (st.oldest_block + MAX_BLOCKS) % MAX_BLOCKS = st.oldest_block := by
      unfold MAX_BLOCKS at *
      omega
    rw [this]
  · intro m0 hm0 hre hbefore
    unfold BlockMgr.alloc
    exact allocScan_found id m0 MAX_BLOCKS st hm0 hold hre hbefore

/-- Witness for C6: on the freshly constructed ring every slot is Invalid and
unreferenced, so the very first probe at the cursor is reused. -/
theorem c6_witness :
    initBlockMgr.oldest_block < MAX_BLOCKS ∧
      blockReusable (initBlockMgr.blocks.getD ((initBlockMgr.oldest_block + 0) % MAX_BLOCKS) blockDefault) ∧
      BlockMgr.alloc initBlockMgr (1, 5) =
        (some ((initBlockMgr.oldest_block + 0) % MAX_BLOCKS),
          ⟨initBlockMgr.blocks.set ((initBlockMgr.oldest_block + 0) % MAX_BLOCKS)
             { initBlockMgr.blocks.getD ((initBlockMgr.oldest_block + 0) % MAX_BLOCKS) blockDefault with
                 id := (1, 5), status := .pending },
           ((initBlockMgr.oldest_block + 0) % MAX_BLOCKS + 1) % MAX_BLOCKS⟩) :=
  ⟨by decide, by decide,
    (c6_blockmgr_alloc_scan initBlockMgr (1, 5) (by decide)).2 0 (by decide) (by decide)
      (fun m hm => absurd hm (Nat.not_lt_zero m))⟩

/-- Claim C8's invariant: no two slots that are both non-Invalid hold the same
block id. -/
def BlockNoDupIds (st : BlockMgrState) : Prop :=
  ∀ i j, i < st.blocks.length → j < st.blocks.length → i ≠ j →
    (st.blocks.getD i blockDefault).status ≠ .invalid →
    (st.blocks.getD j blockDefault).status ≠ .invalid →
    (st.blocks.getD i blockDefault).id ≠ (st.blocks.getD j blockDefault).id

/-- initial ring followed by two `alloc` calls with the same id. -/
def stC8 : BlockMgrState := (BlockMgr.alloc (BlockMgr.alloc initBlockMgr (1, 5)).2 (1, 5)).2

/-- Counterexample to claim C8 as stated: after `alloc((1,5))` twice from the
fresh ring — the second call only logs "allocating block that is already in
list" and proceeds — slots 0 and 1 are both Pending with the same id, so the
invariant does not survive arbitrary operation sequences. -/
theorem c8_duplicate_id_counterexample : ¬ BlockNoDupIds stC8 := by
  intro h
  exact (h 0 1 (by decide) (by decide) (by decide) (by decide) (by decide)) (by decide)

lemma mcScan_length (id : ℕ × ℕ) (l : List Block) : (mcScan id l).length = l.length := by
  induction l with
  | nil => rfl
  | cons b bs ih =>
    unfold mcScan
    by_cases hb : b.id = id
    · rw [if_pos hb]
      rfl
    · rw [if_neg hb]
      simpa using ih

lemma mcScan_getD_id (id : ℕ × ℕ) (l : List Block) (i : ℕ) :
    ((mcScan id l).getD i blockDefault).id = (l.getD i blockDefault).id := by
  induction l generalizing i with
  | nil => rfl
  | cons b bs ih =>
    unfold mcScan
    by_cases hb : b.id = id
    · rw [if_pos hb]
      cases i with
      | zero => rfl
      | succ n => rfl
    · rw [if_neg hb]
      cases i with
      | zero => rfl
      | succ n => simpa using ih n

lemma mcScan_status (id : ℕ × ℕ) (l : List Block)
    (hpre : ∀ b, l.find? (fun x => decide (x.id = id)) = some b → b.status = .pending) :
    ∀ i, ((mcScan id l).getD i blockDefault).status ≠ .invalid →
      (l.getD i blockDefault).status ≠ .invalid := by
  induction l with
  | nil => intro i h; exact h
  | cons b bs ih =>
    intro i h
    unfold mcScan at h
    by_cases hb : b.id = id
    · rw [if_pos hb] at h
      have hfind : (b :: bs).find? (fun x => decide (x.id = id)) = some b :=
        List.find?_cons_of_pos _ (by simpa using hb)
      have hp := hpre b hfind
      cases i with
      | zero =>
        simp only [List.getD_cons_zero]
        rw [hp]
        intro hcon
        cases hcon
      | succ n =>
        simpa using h
    · rw [if_neg hb] at h
      have hpre2 : ∀ x, bs.find? (fun x => decide (x.id = id)) = some x → x.status = .pending := by
        intro x hx
        apply hpre
        rw [List.find?_cons_of_neg _ (by simpa using hb)]
        exact hx
      cases i with
      | zero => simpa using h
      | succ n =>
        simp only [List.getD_cons_succ] at h ⊢
        exact ih hpre2 n h

lemma findScan_getD (id : ℕ × ℕ) (l : List Block) :
    ∀ (n i : ℕ),
      ((findScan id l n).2.getD i blockDefault).id = (l.getD i blockDefault).id ∧
      ((findScan id l n).2.getD i blockDefault).status = (l.getD i blockDefault).status ∧
      (findScan id l n).2.length = l.length := by
  induction l with
  | nil => intro n i; exact ⟨rfl, rfl, rfl⟩
  | cons b bs ih =>
    intro n i
    unfold findScan
    by_cases hb : b.id = id
    · rw [if_pos hb]
      by_cases hs : b.status = .complete
      · rw [if_pos hs]
        cases i with
        | zero => exact ⟨rfl, rfl, rfl⟩
        | succ m => exact ⟨rfl, rfl, rfl⟩
      · rw [if_neg hs]
        exact ⟨rfl, rfl, rfl⟩
    · rw [if_neg hb]
      cases i with
      | zero =>
        refine ⟨rfl, rfl, ?_⟩
        simpa using (ih (n + 1) 0).2.2
      | succ m =>
        have h3 := ih (n + 1) m
        refine ⟨by simpa using h3.1, by simpa using h3.2.1, by simpa using h3.2.2⟩

lemma relScan_getD (id : ℕ × ℕ) (l : List Block) :
    ∀ i, ((relScan id l).getD i blockDefault).id = (l.getD i blockDefault).id ∧
      ((relScan id l).getD i blockDefault).status = (l.getD i blockDefault).status ∧
      (relScan id l).length = l.length := by
  induction l with
  | nil => intro i; exact ⟨rfl, rfl, rfl⟩
  | cons b bs ih =>
    intro i
    unfold relScan
    by_cases hb : b.id = id
    · rw [if_pos hb]
      cases i with
      | zero => exact ⟨rfl, rfl, rfl⟩
      | succ m => exact ⟨rfl, rfl, rfl⟩
    · rw [if_neg hb]
      cases i with
      | zero =>
        refine ⟨rfl, rfl, ?_⟩
        simpa using (ih 0).2.2
      | succ m =>
        have h3 := ih m
        refine ⟨by simpa using h3.1, by simpa using h3.2.1, by simpa using h3.2.2⟩

lemma map_getD {α : Type} (f : α → α) (l : List α) (d : α) :
    ∀ i, (l.map f).getD i d = if i < l.length then f (l.getD i d) else d := by
  induction l with
  | nil => intro i; simp
  | cons x xs ih =>
    intro i
    cases i with
    | zero => simp
    | succ n =>
      simp only [List.map, List.getD_cons_succ, List.length_cons, ih n]
      by_cases hn : n < xs.length
      · rw [if_pos hn, if_pos (by omega)]
      · rw [if_neg hn, if_neg (by omega)]

lemma allocScan_blocks (id : ℕ × ℕ) :
    ∀ (fuel : ℕ) (st : BlockMgrState),
      (BlockMgr.allocScan st id fuel).2.blocks = st.blocks ∨
      ∃ j, (BlockMgr.allocScan st id fuel).2.blocks =
        st.blocks.set j { st.blocks.getD j blockDefault with id := id, status := .pending } := by
  intro fuel
  induction fuel with
  | zero => intro st; exact Or.inl rfl
  | succ n ih =>
    intro st
    unfold BlockMgr.allocScan
    by_cases hre : blockReusable (st.blocks.getD st.oldest_block blockDefault)
    · rw [if_pos hre]
      exact Or.inr ⟨st.oldest_block, rfl⟩
    · rw [if_neg hre]
      have := ih ⟨st.blocks, (st.oldest_block + 1) % MAX_BLOCKS⟩
      simpa using this

/-- Claim C8 amended: the at-most-one-non-Invalid-slot-per-id invariant is
preserved by every Block Manager operation provided the two documented usage
contracts hold at each call: `alloc` is not called with an id some Pending or
Complete slot already holds (the source only warns and proceeds), and
`mark_completed` is only applied when its first matching slot is Pending (its
asserted contract; an Invalid slot left behind by `invalidate` would otherwise
be resurrected to Complete). `find`, `release` and `invalidate` preserve the
invariant unconditionally. -/
theorem c8_unique_id_invariant (st : BlockMgrState) (id : ℕ × ℕ) (fn : ℕ)
    (h : BlockNoDupIds st) :
    ((∀ b, st.blocks.find? (fun x => decide (x.id = id)) = some b → b.status = .pending) →
      BlockNoDupIds (BlockMgr.mark_completed st id)) ∧
    BlockNoDupIds (BlockMgr.find st id).2 ∧
    BlockNoDupIds (BlockMgr.release st id) ∧
    BlockNoDupIds (BlockMgr.invalidate st fn) ∧
    ((∀ i < st.blocks.length,
        (st.blocks.getD i blockDefault).status ≠ .invalid →
        (st.blocks.getD i blockDefault).id ≠ id) →
      BlockNoDupIds (BlockMgr.alloc st id).2) := by
  refine ⟨?_, ?_, ?_, ?_, ?_⟩
  · -- mark_completed
    intro hpre i j hi hj hij hni hnj
    simp only [BlockMgr.mark_completed] at hi hj hni hnj ⊢
    rw [mcScan_length] at hi hj
    rw [mcScan_getD_id, mcScan_getD_id]
    exact h i j hi hj hij (mcScan_status id st.blocks hpre i hni)
      (mcScan_status id st.blocks hpre j hnj)
  · -- find
    intro i j hi hj hij hni hnj
    simp only [BlockMgr.find] at hi hj hni hnj ⊢
    rw [(findScan_getD id st.blocks 0 i).2.2] at hi
    rw [(findScan_getD id st.blocks 0 j).2.2] at hj
    rw [(findScan_getD id st.blocks 0 i).2.1] at hni
    rw [(findScan_getD id st.blocks 0 j).2.1] at hnj
    rw [(findScan_getD id st.blocks 0 i).1, (findScan_getD id st.blocks 0 j).1]
    exact h i j hi hj hij hni hnj
  · -- release
    intro i j hi hj hij hni hnj
    simp only [BlockMgr.release] at hi hj hni hnj ⊢
    rw [(relScan_getD id st.blocks i).2.2] at hi
    rw [(relScan_getD id st.blocks j).2.2] at hj
    rw [(relScan_getD id st.blocks i).2.1] at hni
    rw [(relScan_getD id st.blocks j).2.1] at hnj
    rw [(relScan_getD id st.blocks i).1, (relScan_getD id st.blocks j).1]
    exact h i j hi hj hij hni hnj
  · -- invalidate
    intro i j hi hj hij hni hnj
    simp only [BlockMgr.invalidate, List.length_map] at hi hj hni hnj ⊢
    rw [map_getD _ _ _ i, if_pos hi] at hni ⊢
    rw [map_getD _ _ _ j, if_pos hj] at hnj ⊢
    have hid : ∀ b : Block,
        ((if b.id.1 = fn then { b with status := BlockStatus.invalid } else b) : Block).id = b.id := by
      intro b
      by_cases hb : b.id.1 = fn
      · rw [if_pos hb]
      · rw [if_neg hb]
    have hstat : ∀ b : Block,
        ((if b.id.1 = fn then { b with status := BlockStatus.invalid } else b) : Block).status ≠ .invalid →
        b.status ≠ .invalid := by
      intro b hb
      by_cases hc : b.id.1 = fn
      · rw [if_pos hc] at hb
        exact absurd rfl hb
      · rw [if_neg hc] at hb
        exact hb
    rw [hid, hid]
    exact h i j hi hj hij (hstat _ hni) (hstat _ hnj)
  · -- alloc
    intro hpre
    rcases allocScan_blocks id MAX_BLOCKS st with hsame | ⟨k, hset⟩
    · intro i j hi hj hij hni hnj
      unfold BlockMgr.alloc at *
      rw [hsame] at hi hj hni hnj ⊢
      exact h i j hi hj hij hni hnj
    · intro i j hi hj hij hni hnj
      unfold BlockMgr.alloc at *
      rw [hset] at hi hj hni hnj ⊢
      simp only [List.length_set] at hi hj
      simp only [getD_set] at hni hnj ⊢
      by_cases hik : i = k ∧ k < st.blocks.length
      · rw [if_pos hik] at hni ⊢
        by_cases hjk : j = k ∧ k < st.blocks.length
        · exact absurd (hik.1.trans hjk.1.symm) hij
        · rw [if_neg hjk] at hnj ⊢
          intro heq
          exact hpre j hj hnj (by
            have : ({ st.blocks.getD k blockDefault with id := id, status := BlockStatus.pending } : Block).id = id := rfl
            rw [← heq, this])
      · rw [if_neg hik] at hni ⊢
        by_cases hjk : j = k ∧ k < st.blocks.length
        · rw [if_pos hjk] at hnj ⊢
          intro heq
          exact hpre i hi hni (by
            have : ({ st.blocks.getD k blockDefault with id := id, status := BlockStatus.pending } : Block).id = id := rfl
            rw [heq, this])
        · rw [if_neg hjk] at hnj ⊢
          exact h i j hi hj hij hni hnj

lemma getD_replicate {α : Type} (a : α) : ∀ (n i : ℕ), (List.replicate n a).getD i a = a := by
  intro n
  induction n with
  | zero => intro i; cases i <;> rfl
  | succ m ih =>
    intro i
    cases i with
    | zero => rfl
    | succ k => exact ih k

/-- Witness for the amended C8 at the freshly constructed ring (every slot is
Invalid, so the invariant holds vacuously). -/
theorem c8_witness :
    BlockNoDupIds initBlockMgr ∧
      ((∀ b, initBlockMgr.blocks.find? (fun x => decide (x.id = (1, 5))) = some b →
          b.status = .pending) →
        BlockNoDupIds (BlockMgr.mark_completed initBlockMgr (1, 5))) ∧
      BlockNoDupIds (BlockMgr.find initBlockMgr (1, 5)).2 ∧
      BlockNoDupIds (BlockMgr.release initBlockMgr (1, 5)) ∧
      BlockNoDupIds (BlockMgr.invalidate initBlockMgr 0) ∧
      ((∀ i < initBlockMgr.blocks.length,
          (initBlockMgr.blocks.getD i blockDefault).status ≠ .invalid →
          (initBlockMgr.blocks.getD i blockDefault).id ≠ (1, 5)) →
        BlockNoDupIds (BlockMgr.alloc initBlockMgr (1, 5)).2) := by
  have hnd : BlockNoDupIds initBlockMgr := by
    intro i j hi hj hij hni hnj
    exfalso
    apply hni
    show ((List.replicate MAX_BLOCKS blockDefault).getD i blockDefault).status = .invalid
    rw [getD_replicate blockDefault MAX_BLOCKS i]
    rfl
  exact ⟨hnd, c8_unique_id_invariant initBlockMgr (1, 5) 0 hnd⟩

/-!
## Claim C5: registry reference counting
-/

def ebDefault : ExtantBuf := ⟨0, 0, 0, 0, 0⟩

/-- `n` further check-outs of the same buffer via `add_ref`. -/
def addRefN (bufv sizev fnv : ℕ) : ℕ → EBState → EBState
  | 0, s => s
  | n + 1, s => addRefN bufv sizev fnv n (ExtantBufMgr.add_ref s bufv sizev fnv)

/-- `n` releases of address `q` via `find_and_remove`. -/
def releaseN (q : ℕ) : ℕ → EBState → EBState
  | 0, s => s
  | n + 1, s => (ExtantBufMgr.find_and_remove (releaseN q n s) q).2.2

/-- the entry for buffer `b` sits at some position, with reference count `r`,
and no slot before it matches `b` or the queried address `q`. -/
def TrackedEB (b q sz r : ℕ) (s : EBState) : Prop :=
  ∃ pre e post, s.bufs = pre ++ e :: post ∧ e.buf = b ∧ e.size = sz ∧ e.refs = r ∧
    (∀ x ∈ pre, ¬ ebMatches x b ∧ ¬ ebMatches x q)

lemma ebAddRefScan_cons (b : ℕ) (x : ExtantBuf) (xs : List ExtantBuf) :
    ebAddRefScan b (x :: xs) =
      if ebMatches x b then some ({ x with refs := incU32 x.refs } :: xs)
      else (ebAddRefScan b xs).map (x :: ·) := rfl

lemma ebRemoveScan_cons (q : ℕ) (x : ExtantBuf) (xs : List ExtantBuf) :
    ebRemoveScan q (x :: xs) =
      if ebMatches x q then
        (if decU32 x.refs = 0 then
          some ((x.buf, x.size, x.atom_fn), true,
            (⟨0, 0, 0, decU32 x.refs, x.epoch⟩ : ExtantBuf) :: xs)
        else some ((x.buf, x.size, x.atom_fn), false, { x with refs := decU32 x.refs } :: xs))
      else (ebRemoveScan q xs).map (fun y => (y.1, y.2.1, x :: y.2.2)) := rfl

lemma ebAddScan_split (e : ExtantBuf) (l : List ExtantBuf) :
    ∃ pre post, ebAddScan e l = pre ++ e :: post ∧ ∀ x ∈ pre, x ∈ l ∧ x.buf ≠ 0 := by
  induction l with
  | nil => exact ⟨[], [], rfl, by simp⟩
  | cons x xs ih =>
    unfold ebAddScan
    by_cases hx : x.buf = 0
    · rw [if_pos hx]
      exact ⟨[], xs, rfl, by simp⟩
    · rw [if_neg hx]
      obtain ⟨pre, post, heq, hpre⟩ := ih
      refine ⟨x :: pre, post, by rw [heq]; rfl, ?_⟩
      intro y hy
      rcases List.mem_cons.mp hy with h1 | hm
      · rw [h1]
        exact ⟨List.mem_cons_self x xs, hx⟩
      · exact ⟨List.mem_cons_of_mem x (hpre y hm).1, (hpre y hm).2⟩

lemma ebAddRefScan_split (b : ℕ) (pre : List ExtantBuf) (e : ExtantBuf)
    (post : List ExtantBuf) (hm : ebMatches e b) (hpre : ∀ x ∈ pre, ¬ ebMatches x b) :
    ebAddRefScan b (pre ++ e :: post) =
      some (pre ++ { e with refs := incU32 e.refs } :: post) := by
  induction pre with
  | nil =>
    rw [List.nil_append, ebAddRefScan_cons, if_pos hm]
    rfl
  | cons x xs ih =>
    have hx : ¬ ebMatches x b := hpre x (List.mem_cons_self x xs)
    rw [List.cons_append, ebAddRefScan_cons, if_neg hx,
      ih (fun y hy => hpre y (List.mem_cons_of_mem x hy))]
    rfl

lemma ebRemoveScan_split (q : ℕ) (pre : List ExtantBuf) (e : ExtantBuf)
    (post : List ExtantBuf) (hm : ebMatches e q) (hpre : ∀ x ∈ pre, ¬ ebMatches x q) :
    ebRemoveScan q (pre ++ e :: post) =
      some ((e.buf, e.size, e.atom_fn),
        if decU32 e.refs = 0 then
          (true, pre ++ (⟨0, 0, 0, decU32 e.refs, e.epoch⟩ : ExtantBuf) :: post)
        else (false, pre ++ { e with refs := decU32 e.refs } :: post)) := by
  induction pre with
  | nil =>
    rw [List.nil_append, ebRemoveScan_cons, if_pos hm]
    by_cases hz : decU32 e.refs = 0
    · rw [if_pos hz, if_pos hz]
      rfl
    · rw [if_neg hz, if_neg hz]
      rfl
  | cons x xs ih =>
    have hx : ¬ ebMatches x q := hpre x (List.mem_cons_self x xs)
    rw [List.cons_append, ebRemoveScan_cons, if_neg hx,
      ih (fun y hy => hpre y (List.mem_cons_of_mem x hy))]
    by_cases hz : decU32 e.refs = 0
    · rw [if_pos hz, if_pos hz]
      rfl
    · rw [if_neg hz, if_neg hz]
      rfl

lemma tracked_add (st : EBState) (b size fn q : ℕ) (ll : Bool)
    (hclean : ∀ x ∈ st.bufs, ¬ ebMatches x b ∧ ¬ ebMatches x q) :
    TrackedEB b q (if size = 0 then 1 else size) 1 (ExtantBufMgr.add st b size fn ll) := by
  obtain ⟨pre, post, heq, hpre⟩ :=
    ebAddScan_split ⟨b, if size = 0 then 1 else size, fn, 1, if ll then 0 else st.epoch⟩ st.bufs
  refine ⟨pre, ⟨b, if size = 0 then 1 else size, fn, 1, if ll then 0 else st.epoch⟩, post,
    ?_, rfl, rfl, rfl, ?_⟩
  · show (ExtantBufMgr.add st b size fn ll).bufs = _
    exact heq
  · intro x hx
    exact hclean x (hpre x hx).1

lemma tracked_add_ref {b q sz r : ℕ} {s : EBState} (h : TrackedEB b q sz r s)
    (hsz : 1 ≤ sz) (size fn : ℕ) :
    TrackedEB b q sz (incU32 r) (ExtantBufMgr.add_ref s b size fn) := by
  obtain ⟨pre, e, post, heq, hbuf, hsize, hrefs, hpre⟩ := h
  have hm : ebMatches e b := ⟨by omega, by omega⟩
  unfold ExtantBufMgr.add_ref
  rw [heq, ebAddRefScan_split b pre e post hm (fun x hx => (hpre x hx).1)]
  exact ⟨pre, { e with refs := incU32 e.refs }, post, rfl, hbuf, hsize, by rw [hrefs], hpre⟩

lemma getD_append_length (l1 : List ExtantBuf) (x : ExtantBuf) (l2 : List ExtantBuf) :
    (l1 ++ x :: l2).getD l1.length ebDefault = x := by
  induction l1 with
  | nil => rfl
  | cons y ys ih => simpa using ih

lemma tracked_release {b q sz r : ℕ} {s : EBState} (h : TrackedEB b q sz r s)
    (hq : b ≤ q ∧ q < b + sz) :
    (decU32 r ≠ 0 →
      (ExtantBufMgr.find_and_remove s q).2.1 = false ∧
        TrackedEB b q sz (decU32 r) (ExtantBufMgr.find_and_remove s q).2.2) ∧
    (decU32 r = 0 →
      (ExtantBufMgr.find_and_remove s q).2.1 = true ∧
        ∃ i < (ExtantBufMgr.find_and_remove s q).2.2.bufs.length,
          ((ExtantBufMgr.find_and_remove s q).2.2.bufs.getD i ebDefault).buf = 0) := by
  obtain ⟨pre, e, post, heq, hbuf, hsize, hrefs, hpre⟩ := h
  have hm : ebMatches e q := ⟨by omega, by omega⟩
  have hscan := ebRemoveScan_split q pre e post hm (fun x hx => (hpre x hx).2)
  rw [hrefs] at hscan
  constructor
  · intro hnz
    unfold ExtantBufMgr.find_and_remove
    rw [heq, hscan, if_neg hnz]
    exact ⟨rfl, pre, { e with refs := decU32 r }, post, rfl, hbuf, hsize, rfl, hpre⟩
  · intro hz
    unfold ExtantBufMgr.find_and_remove
    rw [heq, hscan, if_pos hz]
    refine ⟨rfl, pre.length, by simp, ?_⟩
    show ((pre ++ (⟨0, 0, 0, decU32 r, e.epoch⟩ : ExtantBuf) :: post).getD pre.length ebDefault).buf = 0
    rw [getD_append_length]

lemma incU32_small {r : ℕ} (h : r + 1 < 2 ^ 32) : incU32 r = r + 1 := by
  unfold incU32
  omega

lemma decU32_small {r : ℕ} (h1 : 1 ≤ r) (h2 : r < 2 ^ 32) : decU32 r = r - 1 := by
  unfold decU32
  have : r + (2 ^ 32 - 1) = (r - 1) + 1 * 2 ^ 32 := by omega
  rw [this, Nat.add_mul_mod_self_right]
  omega

lemma decU32_one : decU32 1 = 0 := by
  rw [decU32_small (by omega) (by norm_num)]

lemma tracked_addRefN (b q sz size fn : ℕ) (hsz : 1 ≤ sz) :
    ∀ (n : ℕ) (s : EBState) (r : ℕ), TrackedEB b q sz r s → r + n < 2 ^ 32 →
      TrackedEB b q sz (r + n) (addRefN b size fn n s) := by
  intro n
  induction n with
  | zero => intro s r h _; exact h
  | succ m ih =>
    intro s r h hlt
    unfold addRefN
    have h1 := tracked_add_ref h hsz size fn
    rw [incU32_small (by omega)] at h1
    have h2 := ih (ExtantBufMgr.add_ref s b size fn) (r + 1) h1 (by omega)
    have : r + 1 + m = r + (m + 1) := by omega
    rw [this] at h2
    exact h2

lemma tracked_releaseN (b q sz : ℕ) (hq : b ≤ q ∧ q < b + sz) (k : ℕ)
    (hk2 : k < 2 ^ 32) (s : EBState) (h : TrackedEB b q sz k s) :
    ∀ m, m ≤ k - 1 → TrackedEB b q sz (k - m) (releaseN q m s) := by
  intro m
  induction m with
  | zero => intro _; exact h
  | succ n ih =>
    intro hle
    have htr := ih (by omega)
    unfold releaseN
    have hrel := (tracked_release htr hq).1
    have hdec : decU32 (k - n) = k - n - 1 := decU32_small (by omega) (by omega)
    have hne : decU32 (k - n) ≠ 0 := by omega
    have := (hrel hne).2
    rw [hdec] at this
    have heq : k - n - 1 = k - (n + 1) := by omega
    rw [heq] at this
    exact this

/-- Claim C5: starting from a registry state in which no entry's range contains
the buffer `b` (or the queried address `q`), one `add` followed by `k - 1`
further `add_ref` check-outs of `b` needs exactly `k` `find_and_remove` calls
on the in-range address `q` before `fully_released` becomes true:
`fully_released` is false on each of the first `k - 1` calls, true exactly on
the `k`-th, and the entry's slot is then tombstoned (`buf = 0`), reusable by a
later `add`. -/
theorem c5_refcount_release (st : EBState) (b size fn q k : ℕ) (ll : Bool)
    (hq : b ≤ q ∧ q < b + (if size = 0 then 1 else size))
    (hclean : ∀ x ∈ st.bufs, ¬ ebMatches x b ∧ ¬ ebMatches x q)
    (hk1 : 1 ≤ k) (hk2 : k < 2 ^ 32) :
    (∀ m, m < k - 1 →
      (ExtantBufMgr.find_and_remove
        (releaseN q m (addRefN b size fn (k - 1) (ExtantBufMgr.add st b size fn ll))) q).2.1
        = false) ∧
    (ExtantBufMgr.find_and_remove
      (releaseN q (k - 1) (addRefN b size fn (k - 1) (ExtantBufMgr.add st b size fn ll))) q).2.1
      = true ∧
    (∃ i < (releaseN q k (addRefN b size fn (k - 1) (ExtantBufMgr.add st b size fn ll))).bufs.length,
      ((releaseN q k (addRefN b size fn (k - 1) (ExtantBufMgr.add st b size fn ll))).bufs.getD
          i ebDefault).buf = 0) := by
  set sz := if size = 0 then 1 else size with hsz
  have hsz1 : 1 ≤ sz := by
    rw [hsz]
    by_cases h0 : size = 0
    · rw [if_pos h0]
    · rw [if_neg h0]
      omega
  have h1 : TrackedEB b q sz 1 (ExtantBufMgr.add st b size fn ll) :=
    tracked_add st b size fn q ll hclean
  have h2 : TrackedEB b q sz k (addRefN b size fn (k - 1) (ExtantBufMgr.add st b size fn ll)) := by
    have := tracked_addRefN b q sz size fn hsz1 (k - 1) _ 1 h1 (by omega)
    have heq : 1 + (k - 1) = k := by omega
    rw [heq] at this
    exact this
  refine ⟨?_, ?_, ?_⟩
  · intro m hm
    have htr := tracked_releaseN b q sz hq k hk2 _ h2 m (by omega)
    have hne : decU32 (k - m) ≠ 0 := by
      rw [decU32_small (by omega) (by omega)]
      omega
    exact ((tracked_release htr hq).1 hne).1
  · have htr := tracked_releaseN b q sz hq k hk2 _ h2 (k - 1) (by omega)
    have hkk : k - (k - 1) = 1 := by omega
    rw [hkk] at htr
    exact ((tracked_release htr hq).2 decU32_one).1
  · have htr := tracked_releaseN b q sz hq k hk2 _ h2 (k - 1) (by omega)
    have hkk : k - (k - 1) = 1 := by omega
    rw [hkk] at htr
    have hlast := ((tracked_release htr hq).2 decU32_one).2
    have hstep : releaseN q k (addRefN b size fn (k - 1) (ExtantBufMgr.add st b size fn ll)) =
        (ExtantBufMgr.find_and_remove
          (releaseN q (k - 1) (addRefN b size fn (k - 1) (ExtantBufMgr.add st b size fn ll))) q).2.2 := by
      have hk : k = (k - 1) + 1 := by omega
      rw [hk]
      rfl
    rw [hstep]
    exact hlast

/-- Witness for C5 at a concrete two-check-out run from the empty registry. -/
theorem c5_witness :
    (100 ≤ 120 ∧ 120 < 100 + (if (50 : ℕ) = 0 then 1 else 50)) ∧
      (∀ x ∈ initEB.bufs, ¬ ebMatches x 100 ∧ ¬ ebMatches x 120) ∧
      ((∀ m, m < 2 - 1 →
        (ExtantBufMgr.find_and_remove
          (releaseN 120 m (addRefN 100 50 3 (2 - 1) (ExtantBufMgr.add initEB 100 50 3 false)))
          120).2.1 = false) ∧
      (ExtantBufMgr.find_and_remove
        (releaseN 120 (2 - 1) (addRefN 100 50 3 (2 - 1) (ExtantBufMgr.add initEB 100 50 3 false)))
        120).2.1 = true ∧
      (∃ i < (releaseN 120 2 (addRefN 100 50 3 (2 - 1)
            (ExtantBufMgr.add initEB 100 50 3 false))).bufs.length,
        ((releaseN 120 2 (addRefN 100 50 3 (2 - 1)
            (ExtantBufMgr.add initEB 100 50 3 false))).bufs.getD i ebDefault).buf = 0)) :=
  ⟨by decide, by decide,
    c5_refcount_release initEB 100 50 3 120 2 false (by decide) (by decide)
      (by decide) (by norm_num)⟩

/-!
## Claim C3: coalescing of adjacent regions
-/

lemma round_up_multiple {s : ℕ} (ha : s % BUF_ALIGN = 0) (hs : 0 < s) :
    round_up s BUF_ALIGN = s := by
  obtain ⟨t, rfl⟩ : ∃ t, s = BUF_ALIGN * t :=
    ⟨s / BUF_ALIGN, (Nat.mul_div_cancel' (Nat.dvd_of_mod_eq_zero ha)).symm⟩
  unfold round_up BUF_ALIGN at *
  rw [show 4096 * t + 4096 - 1 = 4096 * t + 4095 by omega]
  rw [Nat.mul_add_div (by omega)]
  rw [show (4095 : ℕ) / 4096 = 0 by omega]
  omega

lemma ilog2Go_lt {f : ℕ} : ∀ {n : ℕ}, 0 < f → n < 2 ^ f → ilog2Go f n < f := by
  induction f with
  | zero => intro n h; omega
  | succ m ih =>
    intro n _ hn
    unfold ilog2Go
    by_cases h2 : n < 2
    · rw [if_pos h2]
      omega
    · rw [if_neg h2]
      have hm : 0 < m := by
        by_contra hc
        have : m = 0 := by omega
        subst this
        simp [pow_succ] at hn
        omega
      have : n / 2 < 2 ^ m := by
        rw [pow_succ] at hn
        omega
      have := ih hm this
      omega

lemma size_class_lt_64 {s : ℕ} (h : s ≤ MAX_CACHE_SIZE) : size_class_of s < 64 := by
  unfold size_class_of ilog2
  apply ilog2Go_lt (by omega)
  unfold MAX_CACHE_SIZE at h
  calc s ≤ 64 * 1024 * 1024 := h
    _ < 2 ^ 64 := by norm_num

lemma find?_unique {α : Type} {p : α → Bool} {l : List α} {r : α} (hr : r ∈ l)
    (hp : p r = true) (huniq : ∀ x ∈ l, p x = true → x = r) : l.find? p = some r := by
  induction l with
  | nil => cases hr
  | cons x xs ih =>
    by_cases hx : p x = true
    · rw [List.find?_cons_of_pos _ hx]
      rw [huniq x (List.mem_cons_self x xs) hx]
    · rw [List.find?_cons_of_neg _ (by simpa using hx)]
      have hrx : r ∈ xs := by
        rcases List.mem_cons.mp hr with h1 | h2
        · exact absurd (h1 ▸ hp) hx
        · exact h2
      exact ih hrx (fun y hy hpy => huniq y (List.mem_cons_of_mem x hy) hpy)

lemma find?_some_of_mem {α : Type} {p : α → Bool} {l : List α} {x : α} (hx : x ∈ l)
    (hp : p x = true) : ∃ y, l.find? p = some y := by
  induction l with
  | nil => cases hx
  | cons h t ih =>
    by_cases hh : p h = true
    · exact ⟨h, List.find?_cons_of_pos _ hh⟩
    · rw [List.find?_cons_of_neg _ (by simpa using hh)]
      have hxt : x ∈ t := by
        rcases List.mem_cons.mp hx with h1 | h2
        · exact absurd (h1 ▸ hp) hh
        · exact h2
      exact ih hxt

lemma find?_none {α : Type} {p : α → Bool} {l : List α}
    (h : ∀ x ∈ l, ¬ p x = true) : l.find? p = none := by
  induction l with
  | nil => rfl
  | cons x xs ih =>
    rw [List.find?_cons_of_neg _ (h x (List.mem_cons_self x xs))]
    exact ih (fun y hy => h y (List.mem_cons_of_mem x hy))

lemma mem_regionsUpTo {st : AllocState} {x : Region} :
    ∀ {n : ℕ}, x ∈ regionsUpTo st n ↔ ∃ c < n, x ∈ st.freelists c := by
  intro n
  induction n with
  | zero => simp [regionsUpTo]
  | succ m ih =>
    unfold regionsUpTo
    rw [List.mem_append, ih]
    constructor
    · rintro (⟨c, hc, hm⟩ | hm)
      · exact ⟨c, by omega, hm⟩
      · exact ⟨m, by omega, hm⟩
    · rintro ⟨c, hc, hm⟩
      by_cases hcm : c = m
      · exact Or.inr (hcm ▸ hm)
      · exact Or.inl ⟨c, by omega, hm⟩

lemma freelist_add_pos (st : AllocState) (p s : ℕ) : (freelist_add st p s).pos = st.pos := rfl

lemma freelist_remove_pos (st : AllocState) (r : Region) :
    (freelist_remove st r).pos = st.pos := rfl

lemma freelist_add_freelists (st : AllocState) (p s : ℕ) :
    (freelist_add st p s).freelists = fun c =>
      if c = size_class_of s then freelistInsert ⟨p, s⟩ (st.freelists (size_class_of s))
      else st.freelists c := rfl

lemma regionsUpTo_congr {st st' : AllocState} (h : st.freelists = st'.freelists) :
    ∀ n, regionsUpTo st n = regionsUpTo st' n := by
  intro n
  induction n with
  | zero => rfl
  | succ m ih =>
    unfold regionsUpTo
    rw [ih, h]

lemma mem_regionsList_add {st : AllocState} {p s : ℕ} {x : Region}
    (hc : size_class_of s < 64) :
    x ∈ regionsList (freelist_add st p s) ↔ x = ⟨p, s⟩ ∨ x ∈ regionsList st := by
  unfold regionsList
  rw [mem_regionsUpTo, mem_regionsUpTo]
  constructor
  · rintro ⟨c, hlt, hm⟩
    rw [freelist_add_freelists] at hm
    dsimp only at hm
    by_cases hcc : c = size_class_of s
    · rw [if_pos hcc] at hm
      rcases mem_freelistInsert.mp hm with h1 | h2
      · exact Or.inl h1
      · exact Or.inr ⟨size_class_of s, hc, hcc ▸ h2⟩
    · rw [if_neg hcc] at hm
      exact Or.inr ⟨c, hlt, hm⟩
  · rintro (rfl | ⟨c, hlt, hm⟩)
    · refine ⟨size_class_of s, hc, ?_⟩
      rw [freelist_add_freelists]
      dsimp only
      rw [if_pos rfl]
      exact mem_freelistInsert.mpr (Or.inl rfl)
    · refine ⟨c, hlt, ?_⟩
      rw [freelist_add_freelists]
      dsimp only
      by_cases hcc : c = size_class_of s
      · rw [if_pos hcc]
        exact mem_freelistInsert.mpr (Or.inr (hcc ▸ hm))
      · rw [if_neg hcc]
        exact hm

lemma findEndingAt_none {st : AllocState} {t : ℕ}
    (h : ∀ r ∈ regionsList st, r.off + r.size_pa ≠ t) : findEndingAt st t = none := by
  unfold findEndingAt
  apply find?_none
  intro x hx
  simpa using h x hx

lemma findStartingAt_none {st : AllocState} {t : ℕ}
    (h : ∀ r ∈ regionsList st, r.off ≠ t) : findStartingAt st t = none := by
  unfold findStartingAt
  apply find?_none
  intro x hx
  simpa using h x hx

lemma findEndingAt_add {st : AllocState} {p s t : ℕ} (hc : size_class_of s < 64)
    (hpt : p + s = t) (hold : ∀ r ∈ regionsList st, r.off + r.size_pa ≠ t) :
    findEndingAt (freelist_add st p s) t = some ⟨p, s⟩ := by
  unfold findEndingAt
  apply find?_unique
  · exact (mem_regionsList_add hc).mpr (Or.inl rfl)
  · simpa using hpt
  · intro x hx hpx
    rcases (mem_regionsList_add hc).mp hx with h1 | h2
    · exact h1
    · exact absurd (by simpa using hpx) (hold x h2)

lemma findEndingAt_add_none {st : AllocState} {p s t : ℕ} (hc : size_class_of s < 64)
    (hpt : p + s ≠ t) (hold : ∀ r ∈ regionsList st, r.off + r.size_pa ≠ t) :
    findEndingAt (freelist_add st p s) t = none := by
  unfold findEndingAt
  apply find?_none
  intro x hx
  rcases (mem_regionsList_add hc).mp hx with h1 | h2
  · subst h1
    simpa using hpt
  · simpa using hold x h2

lemma findStartingAt_add {st : AllocState} {p s : ℕ} (hc : size_class_of s < 64)
    (hold : ∀ r ∈ regionsList st, r.off ≠ p) :
    findStartingAt (freelist_add st p s) p = some ⟨p, s⟩ := by
  unfold findStartingAt
  apply find?_unique
  · exact (mem_regionsList_add hc).mpr (Or.inl rfl)
  · simp
  · intro x hx hpx
    rcases (mem_regionsList_add hc).mp hx with h1 | h2
    · exact h1
    · exact absurd (by simpa using hpx) (hold x h2)

lemma removeAt_insert {off s : ℕ} {l : List Region} (h : ∀ x ∈ l, x.off ≠ off) :
    removeAt off (freelistInsert ⟨off, s⟩ l) = l := by
  induction l with
  | nil =>
    unfold freelistInsert removeAt
    rw [if_pos rfl]
  | cons n rest ih =>
    have hn : n.off ≠ off := h n (List.mem_cons_self n rest)
    unfold freelistInsert
    dsimp only
    by_cases hle : off ≤ n.off
    · rw [if_pos hle]
      unfold removeAt
      rw [if_neg hn, ih (fun y hy => h y (List.mem_cons_of_mem n hy))]
    · rw [if_neg hle]
      unfold removeAt
      rw [if_pos rfl]

lemma remove_add_freelists (st : AllocState) (p s : ℕ)
    (hold : ∀ x ∈ st.freelists (size_class_of s), x.off ≠ p) :
    (freelist_remove (freelist_add st p s) ⟨p, s⟩).freelists = st.freelists := by
  funext c
  show (if c = size_class_of s then
      removeAt p ((freelist_add st p s).freelists (size_class_of s))
    else (freelist_add st p s).freelists c) = st.freelists c
  rw [freelist_add_freelists]
  dsimp only
  by_cases hc : c = size_class_of s
  · rw [if_pos hc, if_pos rfl, removeAt_insert hold, hc]
  · rw [if_neg hc, if_neg hc]

lemma free_no_merge (st : AllocState) (p s : ℕ)
    (hru : round_up s BUF_ALIGN = s)
    (hc1 : p < st.pos) (hc2 : p + s - 1 < st.pos)
    (hback : ∀ r ∈ regionsList st, r.off + r.size_pa ≠ p)
    (hfwd : ∀ r ∈ regionsList st, r.off ≠ p + s) :
    CacheAllocator.free st p s = freelist_add st p s := by
  unfold CacheAllocator.free
  rw [hru, if_pos ⟨hc1, hc2⟩]
  unfold coalesce_and_free
  by_cases h0 : p ≠ 0
  · rw [if_pos h0, findEndingAt_none hback]
    dsimp only
    by_cases hlt : p + s < st.pos
    · rw [if_pos hlt, findStartingAt_none hfwd]
    · rw [if_neg hlt]
  · rw [if_neg h0]
    dsimp only
    by_cases hlt : p + s < st.pos
    · rw [if_pos hlt, findStartingAt_none hfwd]
    · rw [if_neg hlt]

lemma free_merge_back (st : AllocState) (p s : ℕ) (r0 : Region)
    (hru : round_up s BUF_ALIGN = s)
    (hc1 : p < st.pos) (hc2 : p + s - 1 < st.pos)
    (hp0 : p ≠ 0)
    (hfind : findEndingAt st p = some r0)
    (hr0 : r0.off + r0.size_pa = p)
    (hfwd : ∀ r ∈ regionsList (freelist_remove st r0), r.off ≠ p + s) :
    CacheAllocator.free st p s =
      freelist_add (freelist_remove st r0) r0.off (s + r0.size_pa) := by
  unfold CacheAllocator.free
  rw [hru, if_pos ⟨hc1, hc2⟩]
  unfold coalesce_and_free
  rw [if_pos hp0, hfind]
  dsimp only
  have hpo : p - r0.size_pa = r0.off := by omega
  rw [hpo]
  have hsum : r0.off + (s + r0.size_pa) = p + s := by omega
  rw [hsum]
  rw [freelist_remove_pos]
  by_cases hlt : p + s < st.pos
  · rw [if_pos hlt, findStartingAt_none hfwd]
  · rw [if_neg hlt]

lemma free_merge_fwd (st : AllocState) (p s : ℕ) (r0 : Region)
    (hru : round_up s BUF_ALIGN = s)
    (hc1 : p < st.pos) (hc2 : p + s - 1 < st.pos)
    (hback : ∀ r ∈ regionsList st, r.off + r.size_pa ≠ p)
    (hlt : p + s < st.pos)
    (hfind : findStartingAt st (p + s) = some r0) :
    CacheAllocator.free st p s = freelist_add (freelist_remove st r0) p (s + r0.size_pa) := by
  unfold CacheAllocator.free
  rw [hru, if_pos ⟨hc1, hc2⟩]
  unfold coalesce_and_free
  by_cases h0 : p ≠ 0
  · rw [if_pos h0, findEndingAt_none hback]
    dsimp only
    rw [if_pos hlt, hfind]
  · rw [if_neg h0]
    dsimp only
    rw [if_pos hlt, hfind]

lemma c3_trace_order1 (st : AllocState) (off s1 s2 : ℕ)
    (h1 : 0 < s1) (h2 : s1 % BUF_ALIGN = 0) (h3 : 0 < s2) (h4 : s2 % BUF_ALIGN = 0)
    (h5 : off + s1 + s2 ≤ st.pos) (h6 : s1 + s2 ≤ MAX_CACHE_SIZE)
    (Hf : ∀ r ∈ regionsList st, ¬ (off ≤ r.off ∧ r.off < off + s1 + s2))
    (Ha : ∀ r ∈ regionsList st, r.off + r.size_pa ≠ off)
    (Hb : ∀ r ∈ regionsList st, r.off + r.size_pa ≠ off + s1)
    (Hd : ∀ r ∈ regionsList st, r.off ≠ off + s1 + s2) :
    (CacheAllocator.free (CacheAllocator.free st off s1) (off + s1) s2).freelists =
      fun c => if c = size_class_of (s1 + s2) then
          freelistInsert ⟨off, s1 + s2⟩ (st.freelists (size_class_of (s1 + s2)))
        else st.freelists c := by
  have hru1 : round_up s1 BUF_ALIGN = s1 := round_up_multiple h2 h1
  have hru2 : round_up s2 BUF_ALIGN = s2 := round_up_multiple h4 h3
  have hc1lt : size_class_of s1 < 64 := size_class_lt_64 (by omega)
  have hstep1 : CacheAllocator.free st off s1 = freelist_add st off s1 := by
    refine free_no_merge st off s1 hru1 (by omega) (by omega) Ha ?_
    intro r hr
    have := Hf r hr
    omega
  have hrem : (freelist_remove (freelist_add st off s1) ⟨off, s1⟩).freelists =
      st.freelists := by
    apply remove_add_freelists
    intro x hx
    have hxm : x ∈ regionsList st := mem_regionsUpTo.mpr ⟨size_class_of s1, hc1lt, hx⟩
    have := Hf x hxm
    omega
  have hstep2 : CacheAllocator.free (freelist_add st off s1) (off + s1) s2 =
      freelist_add (freelist_remove (freelist_add st off s1) ⟨off, s1⟩) off (s2 + s1) := by
    refine free_merge_back (freelist_add st off s1) (off + s1) s2 ⟨off, s1⟩ hru2
      ?_ ?_ (by omega) ?_ rfl ?_
    · rw [freelist_add_pos]
      omega
    · rw [freelist_add_pos]
      omega
    · exact findEndingAt_add hc1lt rfl Hb
    · intro r hr
      have hcongr : regionsList (freelist_remove (freelist_add st off s1) ⟨off, s1⟩) =
          regionsList st := regionsUpTo_congr hrem 64
      rw [hcongr] at hr
      have := Hd r hr
      omega
  rw [hstep1, hstep2, freelist_add_freelists, hrem, Nat.add_comm s2 s1]

lemma c3_trace_order2 (st : AllocState) (off s1 s2 : ℕ)
    (h1 : 0 < s1) (h2 : s1 % BUF_ALIGN = 0) (h3 : 0 < s2) (h4 : s2 % BUF_ALIGN = 0)
    (h5 : off + s1 + s2 ≤ st.pos) (h6 : s1 + s2 ≤ MAX_CACHE_SIZE)
    (Hf : ∀ r ∈ regionsList st, ¬ (off ≤ r.off ∧ r.off < off + s1 + s2))
    (Ha : ∀ r ∈ regionsList st, r.off + r.size_pa ≠ off)
    (Hb : ∀ r ∈ regionsList st, r.off + r.size_pa ≠ off + s1)
    (Hd : ∀ r ∈ regionsList st, r.off ≠ off + s1 + s2) :
    (CacheAllocator.free (CacheAllocator.free st (off + s1) s2) off s1).freelists =
      fun c => if c = size_class_of (s1 + s2) then
          freelistInsert ⟨off, s1 + s2⟩ (st.freelists (size_class_of (s1 + s2)))
        else st.freelists c := by
  have hru1 : round_up s1 BUF_ALIGN = s1 := round_up_multiple h2 h1
  have hru2 : round_up s2 BUF_ALIGN = s2 := round_up_multiple h4 h3
  have hc2lt : size_class_of s2 < 64 := size_class_lt_64 (by omega)
  have hstep1 : CacheAllocator.free st (off + s1) s2 = freelist_add st (off + s1) s2 := by
    refine free_no_merge st (off + s1) s2 hru2 (by omega) (by omega) Hb ?_
    intro r hr
    have := Hd r hr
    omega
  have hrem : (freelist_remove (freelist_add st (off + s1) s2) ⟨off + s1, s2⟩).freelists =
      st.freelists := by
    apply remove_add_freelists
    intro x hx
    have hxm : x ∈ regionsList st := mem_regionsUpTo.mpr ⟨size_class_of s2, hc2lt, hx⟩
    have := Hf x hxm
    omega
  have hstep2 : CacheAllocator.free (freelist_add st (off + s1) s2) off s1 =
      freelist_add (freelist_remove (freelist_add st (off + s1) s2) ⟨off + s1, s2⟩)
        off (s1 + s2) := by
    refine free_merge_fwd (freelist_add st (off + s1) s2) off s1 ⟨off + s1, s2⟩ hru1
      ?_ ?_ ?_ ?_ ?_
    · rw [freelist_add_pos]
      omega
    · rw [freelist_add_pos]
      omega
    · intro r hr
      rcases (mem_regionsList_add hc2lt).mp hr with h1' | h2'
      · rw [h1']
        show off + s1 + s2 ≠ off
        omega
      · exact Ha r h2'
    · rw [freelist_add_pos]
      omega
    · apply findStartingAt_add hc2lt
      intro r hr
      have := Hf r hr
      omega
  rw [hstep1, hstep2, freelist_add_freelists, hrem]

/-- The observable outcome claim C3 demands of a result state `E`: the
freelists are those of `st` with a single new region spanning both freed
neighbors, that entry sits on its own size class's list, no other freelist
entry starts inside the span, and an allocation of exactly the combined size
is satisfied by the exact-fit search in that class (step 1 of `alloc`), not by
the bump or split-from-larger fallbacks. -/
def C3Spans (st E : AllocState) (off s1 s2 : ℕ) : Prop :=
  (E.freelists = fun c => if c = size_class_of (s1 + s2) then
      freelistInsert ⟨off, s1 + s2⟩ (st.freelists (size_class_of (s1 + s2)))
    else st.freelists c) ∧
  (⟨off, s1 + s2⟩ : Region) ∈ E.freelists (size_class_of (s1 + s2)) ∧
  (∀ r ∈ regionsList E, off ≤ r.off → r.off < off + s1 + s2 → r = ⟨off, s1 + s2⟩) ∧
  (∃ p stx, alloc_from_class E (size_class_of (s1 + s2)) (s1 + s2) = some (p, stx) ∧
    CacheAllocator.alloc E (s1 + s2) = (some p, stx))

lemma c3_spans_of_freelists (st E : AllocState) (off s1 s2 : ℕ)
    (h1 : 0 < s1) (h2 : s1 % BUF_ALIGN = 0) (h3 : 0 < s2) (h4 : s2 % BUF_ALIGN = 0)
    (h6 : s1 + s2 ≤ MAX_CACHE_SIZE)
    (Hf : ∀ r ∈ regionsList st, ¬ (off ≤ r.off ∧ r.off < off + s1 + s2))
    (hE : E.freelists = fun c => if c = size_class_of (s1 + s2) then
        freelistInsert ⟨off, s1 + s2⟩ (st.freelists (size_class_of (s1 + s2)))
      else st.freelists c) :
    C3Spans st E off s1 s2 := by
  have hc12 : size_class_of (s1 + s2) < 64 := size_class_lt_64 h6
  have hmem : (⟨off, s1 + s2⟩ : Region) ∈ E.freelists (size_class_of (s1 + s2)) := by
    rw [hE]
    dsimp only
    rw [if_pos rfl]
    exact mem_freelistInsert.mpr (Or.inl rfl)
  refine ⟨hE, hmem, ?_, ?_⟩
  · intro r hr hlo hhi
    have hEfl : E.freelists = (freelist_add st off (s1 + s2)).freelists := by
      rw [hE, freelist_add_freelists]
    have hcongr : regionsList E = regionsList (freelist_add st off (s1 + s2)) :=
      regionsUpTo_congr hEfl 64
    rw [hcongr] at hr
    rcases (mem_regionsList_add hc12).mp hr with h1' | h2'
    · exact h1'
    · exact absurd ⟨hlo, hhi⟩ (Hf r h2')
  · have hnz : ¬ (s1 + s2 = 0) := by omega
    have hru12 : round_up (s1 + s2) BUF_ALIGN = s1 + s2 := by
      apply round_up_multiple
      · unfold BUF_ALIGN at *
        omega
      · omega
    obtain ⟨y, hy⟩ :=
      find?_some_of_mem (p := fun r => decide (s1 + s2 ≤ r.size_pa)) hmem (by simp)
    have hafc : alloc_from_class E (size_class_of (s1 + s2)) (s1 + s2) = some (y.off,
        if y.size_pa - (s1 + s2) ≠ 0 then
          freelist_add (freelist_remove E y) (y.off + (s1 + s2)) (y.size_pa - (s1 + s2))
        else freelist_remove E y) := by
      unfold alloc_from_class
      rw [hy]
    refine ⟨y.off, _, hafc, ?_⟩
    unfold CacheAllocator.alloc
    dsimp only
    rw [if_neg hnz, hru12, hafc]

/-- Claim C3: for two address-adjacent allocated regions `[off, off+s1)` and
`[off+s1, off+s1+s2)` of the committed arena (formalized: no current free
region starts inside the combined span or at its end, none ends at its start
or at the junction — i.e. both regions are live and their outer neighbors are
not free), freeing the two regions in either order coalesces them into exactly
one freelist entry `(off, s1+s2)` spanning both, and a subsequent allocation
request of exactly `s1+s2` bytes is satisfied by the exact-fit search in that
entry's own size class, not by the split-from-larger-class fallback. -/
theorem c3_coalesce_adjacent (st : AllocState) (off s1 s2 : ℕ)
    (h1 : 0 < s1) (h2 : s1 % BUF_ALIGN = 0) (h3 : 0 < s2) (h4 : s2 % BUF_ALIGN = 0)
    (h5 : off + s1 + s2 ≤ st.pos) (h6 : s1 + s2 ≤ MAX_CACHE_SIZE)
    (Hf : ∀ r ∈ regionsList st, ¬ (off ≤ r.off ∧ r.off < off + s1 + s2))
    (Ha : ∀ r ∈ regionsList st, r.off + r.size_pa ≠ off)
    (Hb : ∀ r ∈ regionsList st, r.off + r.size_pa ≠ off + s1)
    (Hd : ∀ r ∈ regionsList st, r.off ≠ off + s1 + s2) :
    C3Spans st (CacheAllocator.free (CacheAllocator.free st off s1) (off + s1) s2) off s1 s2 ∧
    C3Spans st (CacheAllocator.free (CacheAllocator.free st (off + s1) s2) off s1) off s1 s2 :=
  ⟨c3_spans_of_freelists st _ off s1 s2 h1 h2 h3 h4 h6 Hf
      (c3_trace_order1 st off s1 s2 h1 h2 h3 h4 h5 h6 Hf Ha Hb Hd),
    c3_spans_of_freelists st _ off s1 s2 h1 h2 h3 h4 h6 Hf
      (c3_trace_order2 st off s1 s2 h1 h2 h3 h4 h5 h6 Hf Ha Hb Hd)⟩

/-- Two committed, allocated pages at offsets 0 and 4096 of an otherwise empty
allocator: the C3 witness state. -/
def st3W : AllocState := ⟨8192, 0, fun _ => []⟩

/-- Witness for C3 at the concrete pair of adjacent pages. -/
theorem c3_witness :
    ((0 : ℕ) < 4096 ∧ (4096 : ℕ) % BUF_ALIGN = 0 ∧ 0 + 4096 + 4096 ≤ st3W.pos ∧
      4096 + 4096 ≤ MAX_CACHE_SIZE ∧
      (∀ r ∈ regionsList st3W, ¬ (0 ≤ r.off ∧ r.off < 0 + 4096 + 4096)) ∧
      (∀ r ∈ regionsList st3W, r.off + r.size_pa ≠ 0) ∧
      (∀ r ∈ regionsList st3W, r.off + r.size_pa ≠ 0 + 4096) ∧
      (∀ r ∈ regionsList st3W, r.off ≠ 0 + 4096 + 4096)) ∧
    C3Spans st3W
      (CacheAllocator.free (CacheAllocator.free st3W 0 4096) (0 + 4096) 4096) 0 4096 4096 ∧
    C3Spans st3W
      (CacheAllocator.free (CacheAllocator.free st3W (0 + 4096) 4096) 0 4096) 0 4096 4096 :=
  ⟨by decide,
    (c3_coalesce_adjacent st3W 0 4096 4096 (by decide) (by decide) (by decide) (by decide)
      (by decide) (by decide) (by decide) (by decide) (by decide) (by decide)).1,
    (c3_coalesce_adjacent st3W 0 4096 4096 (by decide) (by decide) (by decide) (by decide)
      (by decide) (by decide) (by decide) (by decide) (by decide) (by decide)).2⟩

/-- What claim C3 demands of a result state `E`, in the claim's own words:
exactly one freelist entry whose extent spans both freed regions, and the
subsequent allocation of exactly the combined size is satisfied by the
exact-fit search of step (1) in the ideal (the spanning entry's own) size
class — not by the bump or split-from-larger-class fallbacks. -/
def C3ClaimOutcome (E : AllocState) (off s1 s2 : ℕ) : Prop :=
  (∃ r ∈ regionsList E, (r.off ≤ off ∧ off + s1 + s2 ≤ r.off + r.size_pa) ∧
    ∀ r' ∈ regionsList E, (r'.off ≤ off ∧ off + s1 + s2 ≤ r'.off + r'.size_pa) → r' = r) ∧
  (∃ p stx, alloc_from_class E (size_class_of (s1 + s2)) (s1 + s2) = some (p, stx) ∧
    CacheAllocator.alloc E (s1 + s2) = (some p, stx))

/-- Claim C3 as stated: for ANY two address-adjacent allocated regions — i.e.
whenever the combined span is committed and no free region overlaps its bytes,
with no restriction on the pair's outer neighbors — freeing both in either
order yields the spanning-entry/exact-fit outcome above. -/
def ClaimC3 : Prop :=
  ∀ (st : AllocState) (off s1 s2 : ℕ),
    0 < s1 → s1 % BUF_ALIGN = 0 → 0 < s2 → s2 % BUF_ALIGN = 0 →
    off + s1 + s2 ≤ st.pos → s1 + s2 ≤ MAX_CACHE_SIZE →
    (∀ r ∈ regionsList st, ¬ (r.off < off + s1 + s2 ∧ off < r.off + r.size_pa)) →
    C3ClaimOutcome (CacheAllocator.free (CacheAllocator.free st off s1) (off + s1) s2) off s1 s2 ∧
    C3ClaimOutcome (CacheAllocator.free (CacheAllocator.free st (off + s1) s2) off s1) off s1 s2

/-- A reachable state with a FREE region adjacent below the allocated pair:
allocate 8 KiB (the future free neighbor at 0), the pair A = [8192, 12288) and
B = [12288, 16384), and a filler taking the rest of the arena, then free the
first 8 KiB. Its class-13 freelist holds (0, 8192) and the pool is fully
committed. -/
def stPreC3 : AllocState :=
  CacheAllocator.free
    (CacheAllocator.alloc
      (CacheAllocator.alloc
        (CacheAllocator.alloc (CacheAllocator.alloc emptyAlloc 8192).2 4096).2 4096).2
      (MAX_CACHE_SIZE - 16384)).2
    0 8192

/-- Counterexample to claim C3 as stated: freeing the adjacent pair A, B of
`stPreC3` back-merges with the free 8 KiB neighbor into one 16 KiB class-14
entry; the subsequent 8 KiB request (ideal class 13) finds class 13 empty and
the pool full, and is served by the split-from-larger-class fallback — not by
the exact-fit search the claim requires. The claim's unrestricted "any two
address-adjacent allocated regions" therefore fails on the code; it needs the
pair's outer neighbors to not be free. -/
theorem c3_exact_fit_counterexample : ¬ ClaimC3 := by
  intro h
  have h2 := h stPreC3 8192 4096 4096 (by decide) (by decide) (by decide) (by decide)
    (by decide) (by decide) (by decide)
  obtain ⟨p, stx, hsome, hrest⟩ := h2.1.2
  have hnone : (alloc_from_class
      (CacheAllocator.free (CacheAllocator.free stPreC3 8192 4096) (8192 + 4096) 4096)
      (size_class_of (4096 + 4096)) (4096 + 4096)).isSome = false := by decide
  rw [hsome] at hnone
  exact Bool.noConfusion hnone
